import Mathlib

/-!
Verification of the markdown-agent prompt-compilation pipeline.

The TypeScript source is shallowly embedded: strings are `List Char`
(a JS string viewed as its character sequence), JS objects are
association lists in insertion order, fallible code returns `Except`,
and JS regular expressions are translated to explicit matching
functions with the same backtracking behaviour.
-/

namespace MdAgent

/-- JS whitespace class used by `\s`, `[^\s]` and `String.prototype.trim`
(the practically occurring characters: space, tab, newline, carriage
return, vertical tab, form feed). -/
def jsWhitespace (c : Char) : Bool :=
  c = ' ' || c = '\t' || c = '\n' || c = '\r' || c = '\x0b' || c = '\x0c'

/-- `String.prototype.trim`: strip leading and trailing whitespace. -/
def jsTrim (s : List Char) : List Char :=
  (s.dropWhile jsWhitespace).reverse.dropWhile jsWhitespace |>.reverse

/-- JS `content.split("\n")`: split into lines, keeping empty pieces
(`"" → [""]`, `"a\n" → ["a", ""]`). -/
def splitNl (s : List Char) : List (List Char) :=
  match s with
  | [] => [[]]
  | c :: rest =>
    let tail := splitNl rest
    if c = '\n' then [] :: tail
    else match tail with
      | [] => [[c]]
      | l :: ls => (c :: l) :: ls

/-- JS `lines.join("\n")`. -/
def joinNl (lines : List (List Char)) : List Char :=
  match lines with
  | [] => []
  | [l] => l
  | l :: rest => l ++ '\n' :: joinNl rest

/-- Embedding of `extractLines(content, start, end)` from the import
resolver: split on newlines, clamp the 1-indexed inclusive range, and
join the selected slice.  `Array.prototype.slice(a, b)` is
`(take b).drop a` (clamping is implicit in `take`/`drop`, as in JS). -/
def extractLines (content : List Char) (start «end» : Nat) : List Char :=
  let lines := splitNl content
  let startIdx := max 0 (start - 1)
  let endIdx := min lines.length «end»
  joinNl ((lines.take endIdx).drop startIdx)

/-! ## JS values and objects

Front-matter and config values are dynamically typed JS values.
Numbers are modelled as integers (the claims under scrutiny involve no
fractional arithmetic).  JS objects are association lists in insertion
order; property assignment overwrites in place, keeping the key's
position, exactly as JS object semantics prescribe. -/

inductive JsValue where
  | bool (b : Bool)
  | str (s : List Char)
  | num (n : Int)
  | null
  | undef
  | list (vs : List JsValue)
  | obj (fields : List (String × JsValue))
  deriving Repr

/-- Keys of a JS object, in insertion order (`Object.keys`). -/
def objKeys {V : Type} (o : List (String × V)) : List String := o.map Prod.fst

/-- Property read `o[k]`; `none` models JS `undefined` from an absent key. -/
def objLookup {V : Type} (o : List (String × V)) (k : String) : Option V :=
  match o with
  | [] => none
  | (k', v) :: rest => if k' = k then some v else objLookup rest k

/-- Property write `o[k] = v`: overwrite in place if the key exists
(keeping its position), otherwise append. -/
def objSet {V : Type} (o : List (String × V)) (k : String) (v : V) : List (String × V) :=
  match o with
  | [] => [(k, v)]
  | (k', v') :: rest => if k' = k then (k, v) :: rest else (k', v') :: objSet rest k v

/-- JS spread `{ ...a, ...b }` (equivalently `Object.assign({}, a, b)`). -/
def objAssign {V : Type} (a b : List (String × V)) : List (String × V) :=
  b.foldl (fun acc kv => objSet acc kv.1 kv.2) a

/-- `delete o[k]`. -/
def objDelete {V : Type} (o : List (String × V)) (k : String) : List (String × V) :=
  o.filter (fun p => p.1 ≠ k)

/-- Generic key-by-key merge: fold `b` into `a`, combining an existing
value (`some`) or absence (`none`) with the incoming value through
`g`.  `objAssign a b` is the instance `g := fun _ v => v`; the
`commands`-level merge of `mergeConfigs` is
`g := fun old v => objAssign (old.getD []) v`. -/
def objMergeWith {V : Type} (g : Option V → V → V) (a b : List (String × V)) :
    List (String × V) :=
  b.foldl (fun acc kv => objSet acc kv.1 (g (objLookup acc kv.1) kv.2)) a

/-- A JS object never holds the same key twice. -/
abbrev NodupKeys {V : Type} (o : List (String × V)) : Prop := (objKeys o).Nodup

/-! ## Config cascade (`config.ts`): `GlobalConfig`, `mergeConfigs` -/

/-- `GlobalConfig { commands?: Record<string, CommandDefaults> }`.
`CommandDefaults` is an open record of flag values. -/
structure GlobalConfig where
  commands : Option (List (String × List (String × JsValue)))
  deriving Repr

/-- `deepCloneConfig`: copies the config and each per-command record.
On immutable values cloning is the identity; the heap-level embedding
below (`deepCloneConfigH`) accounts for the fresh allocations. -/
def deepCloneConfig (config : GlobalConfig) : GlobalConfig :=
  { commands := config.commands.map (fun cmds => cmds.map (fun p => (p.1, p.2))) }

/-- `mergeConfigs(base, override)`: start from a deep clone of `base`;
if `override.commands` is present, merge it command by command, the
override's keys replacing the base's inside each command
(`{ ...(result.commands[cmd] || {}), ...defaults }`). -/
def mergeConfigs (base override : GlobalConfig) : GlobalConfig :=
  let result := deepCloneConfig base
  match override.commands with
  | none => result
  | some oc =>
    { commands := some (oc.foldl
        (fun acc p => objSet acc p.1 (objAssign ((objLookup acc p.1).getD []) p.2))
        (result.commands.getD [])) }

/-! ## Heap-level embedding of the config merge (for the frame claim)

JS objects are mutable reference cells.  To state that `mergeConfigs`
leaves its arguments untouched and returns structure disjoint from
them, the commands mapping and the per-command records are given
explicit identities in a growing heap.  Allocation appends; the code
under study never writes to a pre-existing node (its in-place updates
all target objects it has just allocated, so each node is allocated
with its final contents).  Nested flag *values* are pure data here:
the source's per-command spread is shallow, and the claim speaks of
the per-command mappings, not of object-valued flags inside them. -/

inductive HNode where
  | cmdMap (entries : List (String × Nat))
  | cmdDefaults (fields : List (String × JsValue))

structure Heap where
  nodes : List HNode

def Heap.get (h : Heap) (r : Nat) : Option HNode := h.nodes[r]?

def Heap.alloc (h : Heap) (n : HNode) : Heap × Nat :=
  ({ nodes := h.nodes ++ [n] }, h.nodes.length)

/-- Read a commands object (`Record<string, CommandDefaults>`). -/
def readCmdMap (h : Heap) (r : Nat) : List (String × Nat) :=
  match h.get r with
  | some (.cmdMap entries) => entries
  | _ => []

/-- Read a per-command defaults record. -/
def readDefaults (h : Heap) (r : Nat) : List (String × JsValue) :=
  match h.get r with
  | some (.cmdDefaults fields) => fields
  | _ => []

/-- A config value whose `commands` field, if present, is a reference. -/
structure GlobalConfigRef where
  commands : Option Nat

/-- One step of the clone loop: allocate `{ ...defaults }` for a
command and append the entry to the new map. -/
def cloneCmdStep (h : Heap) (st : Heap × List (String × Nat)) (p : String × Nat) :
    Heap × List (String × Nat) :=
  let a := st.1.alloc (.cmdDefaults (readDefaults h p.2))
  (a.1, st.2 ++ [(p.1, a.2)])

/-- Heap-level `deepCloneConfig`: a fresh record per command
(`result.commands[cmd] = { ...defaults }`) and a fresh commands map. -/
def deepCloneConfigH (h : Heap) (cfg : GlobalConfigRef) : Heap × GlobalConfigRef :=
  match cfg.commands with
  | none => (h, { commands := none })
  | some r =>
    let folded := (readCmdMap h r).foldl (cloneCmdStep h) (h, [])
    let a := folded.1.alloc (.cmdMap folded.2)
    (a.1, { commands := some a.2 })

/-- One step of the override loop:
`result.commands[cmd] = { ...(result.commands[cmd] || {}), ...defaults }`,
the spread allocated fresh and written into the map. -/
def mergeCmdStep (st : Heap × List (String × Nat)) (p : String × Nat) :
    Heap × List (String × Nat) :=
  let oldFields :=
    match objLookup st.2 p.1 with
    | some r => readDefaults st.1 r
    | none => []
  let newFields := objAssign oldFields (readDefaults st.1 p.2)
  let a := st.1.alloc (.cmdDefaults newFields)
  (a.1, objSet st.2 p.1 a.2)

/-- Heap-level `mergeConfigs`.  The clone of `base` supplies the
starting map; when `override.commands` is present each override
command gets a freshly allocated spread written into the (fresh)
commands map. -/
def mergeConfigsH (h : Heap) (base override : GlobalConfigRef) : Heap × GlobalConfigRef :=
  let c := deepCloneConfigH h base
  let h1 := c.1
  let cloned := c.2
  match override.commands with
  | none => (h1, cloned)
  | some orf =>
    let cur : List (String × Nat) :=
      match cloned.commands with
      | some r => readCmdMap h1 r
      | none => []
    let folded := (readCmdMap h orf).foldl mergeCmdStep (h1, cur)
    let a := folded.1.alloc (.cmdMap folded.2)
    (a.1, { commands := some a.2 })

/-! ## Front matter: interactive-mode transform and argument compiler -/

/-- JS `v === true`. -/
def jsIsTrue : JsValue → Bool
  | .bool true => true
  | _ => false

/-- JS `v === ""`. -/
def jsIsEmptyStr : JsValue → Bool
  | .str [] => true
  | _ => false

/-- JS `v === null`. -/
def jsIsNull : JsValue → Bool
  | .null => true
  | _ => false

/-- JS `v === undefined`. -/
def jsIsUndef : JsValue → Bool
  | .undef => true
  | _ => false

/-- JS `v === false`. -/
def jsIsFalse : JsValue → Bool
  | .bool false => true
  | _ => false

/-- JS `typeof v === "object" && v !== null && !Array.isArray(v)`. -/
def jsIsPlainObject : JsValue → Bool
  | .obj _ => true
  | _ => false

mutual
/-- JS `String(v)`. Arrays join their elements with `","`
(`null`/`undefined` elements render empty); plain objects render
`"[object Object]"`. -/
def jsString : JsValue → List Char
  | .bool true => "true".toList
  | .bool false => "false".toList
  | .str s => s
  | .num n => (toString n).toList
  | .null => "null".toList
  | .undef => "undefined".toList
  | .list vs => jsStringElems vs
  | .obj _ => "[object Object]".toList

def jsStringElems : List JsValue → List Char
  | [] => []
  | [v] => jsStringElem v
  | v :: w :: rest => jsStringElem v ++ ',' :: jsStringElems (w :: rest)

def jsStringElem : JsValue → List Char
  | .null => []
  | .undef => []
  | .bool b => jsString (.bool b)
  | .str s => jsString (.str s)
  | .num n => jsString (.num n)
  | .list vs => jsStringElems vs
  | .obj fields => jsString (.obj fields)
end

/-- Front matter is an open JS object. -/
def AgentFrontmatter : Type := List (String × JsValue)

/-- Embedding of `applyInteractiveMode(frontmatter, command,
interactiveFromExternal)` from `config.ts`.  The tool-adapter registry
`getAdapter` is a parameter: the claim under study is about the gating
logic, which is uniform in the adapter.  The governing value is
`frontmatter._interactive` when that key is present, else
`frontmatter._i`; when the mode triggers, both meta-keys are deleted
and the adapter's interactive transform is applied. -/
def applyInteractiveMode (getAdapter : String → AgentFrontmatter → AgentFrontmatter)
    (frontmatter : AgentFrontmatter) (command : String)
    (interactiveFromExternal : Bool) : AgentFrontmatter :=
  let hasInteractiveKey := (objLookup frontmatter "_interactive").isSome
  let hasIKey := (objLookup frontmatter "_i").isSome
  let interactiveValue :=
    if hasInteractiveKey then (objLookup frontmatter "_interactive").getD JsValue.undef
    else (objLookup frontmatter "_i").getD JsValue.undef
  let interactiveMode := interactiveFromExternal ||
    jsIsTrue interactiveValue ||
    jsIsEmptyStr interactiveValue ||
    (hasInteractiveKey && jsIsNull interactiveValue) ||
    (hasIKey && jsIsNull interactiveValue) ||
    (!jsIsUndef interactiveValue && !jsIsFalse interactiveValue)
  if !interactiveMode then frontmatter
  else
    let result := objDelete (objDelete frontmatter "_interactive") "_i"
    getAdapter command result

/-- `isPositionalKey`: `/^\$\d+$/`. -/
def isPositionalKey (key : String) : Bool :=
  match key.toList with
  | '$' :: rest => !rest.isEmpty && rest.all Char.isDigit
  | _ => false

/-- `key.startsWith(c)` for a single character. -/
def strStartsWith (key : String) (c : Char) : Bool :=
  match key.toList with
  | c' :: _ => c' == c
  | [] => false

/-- `toFlag(key)`: keys already starting with `-` pass through,
single-character keys become `-k`, the rest become `--key` (the
source's three sequential returns). -/
def toFlag (key : String) : List Char :=
  if strStartsWith key '-' then key.toList
  else if key.length = 1 then '-' :: key.toList
  else '-' :: '-' :: key.toList

/-- One iteration of the `buildArgs` loop (the body of its
`for (const [key, value] of Object.entries(frontmatter))`). -/
def buildArgsStep (templateVars : List String) (args : List (List Char))
    (kv : String × JsValue) : List (List Char) :=
  let key := kv.1
  let value := kv.2
  if key == "args" then args
  else if isPositionalKey key then args
  else if strStartsWith key '$' then args
  else if strStartsWith key '_' then args
  else if templateVars.contains key then args
  else if key == "env" && jsIsPlainObject value then args
  else if jsIsUndef value || jsIsNull value || jsIsFalse value then args
  else if jsIsTrue value then args ++ [toFlag key]
  else match value with
    | .list vs => args ++ (vs.map (fun v => [toFlag key, jsString v])).flatten
    | v => args ++ [toFlag key, jsString v]

/-- Embedding of `buildArgs(frontmatter, templateVars)`: walk the
front-matter entries in insertion order, skip system/positional/`$`/`_`
keys, template variables and the object form of `env`, drop
`null`/`undefined`/`false` values, emit the bare flag for `true`, one
flag-value pair per element for arrays and a single flag-value pair
otherwise. -/
def buildArgs (frontmatter : AgentFrontmatter) (templateVars : List String) :
    List (List Char) :=
  frontmatter.foldl (buildArgsStep templateVars) []

/-- The claim's flag rendering (amended): keys starting with `-` pass
through, other single-character keys render `-k`, longer keys
`--key`. -/
def flagForKey (key : String) : List Char :=
  if strStartsWith key '-' then key.toList
  else if key.length = 1 then '-' :: key.toList
  else '-' :: '-' :: key.toList

/-- The contribution of one front-matter entry per C7's rules, written
from the claim's words: skipped keys (system key `args`, `^\$\d+$`
positional mappings, keys starting `$` or `_`, template variables, the
object form of `env`) contribute nothing; `null`/`undefined`/`false`
emit nothing, `true` emits the flag alone, list values emit the flag
once per element followed by the element, other values emit the flag
followed by the stringified value. -/
def buildArgsSpecChunk (templateVars : List String) (kv : String × JsValue) :
    List (List Char) :=
  if kv.1 == "args" || isPositionalKey kv.1 || strStartsWith kv.1 '$' ||
      strStartsWith kv.1 '_' || templateVars.contains kv.1 ||
      (kv.1 == "env" && jsIsPlainObject kv.2) then []
  else match kv.2 with
    | .null => []
    | .undef => []
    | .bool false => []
    | .bool true => [flagForKey kv.1]
    | .list vs => (vs.map (fun v => [flagForKey kv.1, jsString v])).flatten
    | v => [flagForKey kv.1, jsString v]

/-- The argument compiler as described by the (amended) claim. -/
def buildArgsSpec (frontmatter : AgentFrontmatter) (templateVars : List String) :
    List (List Char) :=
  frontmatter.flatMap (buildArgsSpecChunk templateVars)

/-- The value governing interactive-mode activation (amended claim's
wording): the value of `_interactive` when that key is present,
otherwise the value of `_i` (absent keys read as `undefined`). -/
def governingValue (frontmatter : AgentFrontmatter) : JsValue :=
  if (objLookup frontmatter "_interactive").isSome then
    (objLookup frontmatter "_interactive").getD JsValue.undef
  else (objLookup frontmatter "_i").getD JsValue.undef

/-! ## Inline command execution (`processCommandInline`): output shaping

The process-spawning part is I/O; the embedded function below is the
portion of `processCommandInline` that runs once both streams have
been collected: binary detection on the first 1 KiB of stdout,
trimming, ANSI stripping, the non-zero-exit error, stream combination,
the 100 000-character cap, `{% endraw %}` sanitization and the
`{% raw %}` wrapper, including the `catch` block's re-wrapping rule
(errors whose message mentions a timeout or `Exit ` pass through
unchanged, every other failure is wrapped `Command failed: <cmd> - <msg>`). -/

/-- Number of consecutive characters satisfying `p` from position `i`. -/
def runCount (p : Char → Bool) (s : List Char) (i : Nat) : Nat :=
  ((s.drop i).takeWhile p).length

/-- `pat` occurs at position `i` of `s`. -/
def hasAt (s : List Char) (i : Nat) (pat : List Char) : Bool :=
  pat.isPrefixOf (s.drop i)

/-- First character of `ANSI_ESCAPE_REGEX`: `[\u001b\u009b]`. -/
def ansiPrefixChar (c : Char) : Bool := c = '\x1b' || c = '\x9b'

/-- `[[()#;?]`. -/
def ansiClass1 (c : Char) : Bool :=
  c = '[' || c = '(' || c = ')' || c = '#' || c = ';' || c = '?'

/-- `[0-9A-ORZcf-nqry=><]`. -/
def ansiFinal (c : Char) : Bool :=
  c.isDigit || ('A' ≤ c && c ≤ 'O') || c = 'R' || c = 'Z' || c = 'c' ||
  ('f' ≤ c && c ≤ 'n') || c = 'q' || c = 'r' || c = 'y' || c = '=' || c = '>' || c = '<'

/-- Candidate end positions of `(?:;[0-9]{0,4})*`, in the backtracking
preference order of a greedy star whose iterations take `;` plus up to
four digits (longer digit runs first, more iterations before fewer). -/
def ansiStarAlts (s : List Char) (q : Nat) : Nat → List Nat
  | 0 => [q]
  | fuel + 1 =>
    if s[q]? = some ';' then
      (((List.range (min 4 (runCount Char.isDigit s (q + 1)) + 1)).reverse).map
        (fun k => ansiStarAlts s (q + 1 + k) fuel)).flatten ++ [q]
    else [q]

/-- Candidate end positions of `(?:[0-9]{1,4}(?:;[0-9]{0,4})*)?`,
greedy-first. -/
def ansiNumAlts (s : List Char) (p : Nat) : List Nat :=
  let dr := min 4 (runCount Char.isDigit s p)
  if dr = 0 then [p]
  else (((List.range dr).reverse).map
    (fun d => ansiStarAlts s (p + (d + 1)) (s.length + 1))).flatten ++ [p]

/-- Match `ANSI_ESCAPE_REGEX` at position `i`; returns the end of the
first (leftmost-greedy, with backtracking) match. -/
def matchAnsiAt (s : List Char) (i : Nat) : Option Nat :=
  match s[i]? with
  | none => none
  | some c =>
    if ansiPrefixChar c then
      let a := runCount ansiClass1 s (i + 1)
      let positions := (((List.range (a + 1)).reverse).map
        (fun t => ansiNumAlts s (i + 1 + t))).flatten
      positions.findSome? (fun e =>
        match s[e]? with
        | some cf => if ansiFinal cf then some (e + 1) else none
        | none => none)
    else none

/-- `str.replace(ANSI_ESCAPE_REGEX, '')`: delete every (non-overlapping,
leftmost) match. -/
def ansiStripGo (s : List Char) (i : Nat) : Nat → List Char
  | 0 => []
  | fuel + 1 =>
    match s[i]? with
    | none => []
    | some c =>
      match matchAnsiAt s i with
      | some e => ansiStripGo s e fuel
      | none => c :: ansiStripGo s (i + 1) fuel

def ansiStrip (s : List Char) : List Char := ansiStripGo s 0 (s.length + 1)

/-- Replace every (leftmost, non-overlapping) occurrence of `pat`. -/
def replaceAllGo (pat rep : List Char) : List Char → Nat → List Char
  | s, 0 => s
  | [], _ + 1 => []
  | c :: rest, fuel + 1 =>
    if !pat.isEmpty && pat.isPrefixOf (c :: rest) then
      rep ++ replaceAllGo pat rep ((c :: rest).drop pat.length) fuel
    else c :: replaceAllGo pat rep rest fuel

def replaceAllList (pat rep s : List Char) : List Char :=
  replaceAllGo pat rep s s.length

/-- `pat` occurs somewhere in `s` (as a contiguous substring). -/
def containsSub (pat s : List Char) : Bool :=
  (List.range (s.length + 1)).any (fun i => hasAt s i pat)

/-- `"{% raw %}"`. -/
def rawOpen : List Char := ['{', '%', ' ', 'r', 'a', 'w', ' ', '%', '}']

/-- `"{% endraw %}"`. -/
def endrawLit : List Char := ['{', '%', ' ', 'e', 'n', 'd', 'r', 'a', 'w', ' ', '%', '}']

/-- The sanitizer's replacement for a literal `{% endraw %}`. -/
def endrawEscaped : List Char :=
  endrawLit ++ ['{', '{', ' ', '\x27'] ++ endrawLit ++ ['\x27', ' ', '}', '}'] ++ rawOpen

def MAX_COMMAND_OUTPUT_SIZE : Nat := 100000

/-- `n.toLocaleString()`: decimal digits grouped in threes. -/
def commaGroupGo (l : List Char) : Nat → List Char
  | 0 => l
  | fuel + 1 =>
    if l.length ≤ 3 then l
    else l.take 3 ++ ',' :: commaGroupGo (l.drop 3) fuel

def numToLocale (n : Nat) : List Char :=
  ((commaGroupGo (toString n).toList.reverse (toString n).toList.length).reverse)

/-- The truncation marker appended past the output cap. -/
def truncMarker (truncatedChars : Nat) : List Char :=
  '\n' :: "... [Output truncated: ".toList ++ numToLocale truncatedChars ++
    " characters removed]".toList

/-- The combined stream text (`stderr\nstdout` when both trimmed,
ANSI-stripped streams are non-empty, else `stdout || stderr || ""`). -/
def commandCombined (stdoutBytes stderrBytes : List Char) : List Char :=
  let stdout := ansiStrip (jsTrim stdoutBytes)
  let stderr := ansiStrip (jsTrim stderrBytes)
  if !stderr.isEmpty && !stdout.isEmpty then stderr ++ '\n' :: stdout
  else if !stdout.isEmpty then stdout
  else stderr

/-- The non-zero-exit error text:
`Command failed (Exit ${code}): ${cmd}\nOutput: ${stderr || stdout || "No output"}`. -/
def commandFailMsg (stdoutBytes stderrBytes : List Char) (exitCode : Int)
    (actualCommand : List Char) : List Char :=
  let stdout := ansiStrip (jsTrim stdoutBytes)
  let stderr := ansiStrip (jsTrim stderrBytes)
  "Command failed (Exit ".toList ++ (toString exitCode).toList ++
    "): ".toList ++ actualCommand ++ '\n' :: "Output: ".toList ++
    (if !stderr.isEmpty then stderr
     else if !stdout.isEmpty then stdout else "No output".toList)

/-- Post-collection portion of `processCommandInline` (see section
comment).  `stdoutBytes`/`stderrBytes` are the collected streams,
`exitCode` the child's exit status and `actualCommand` the command
line that was run. -/
def commandInlineOutput (stdoutBytes stderrBytes : List Char) (exitCode : Int)
    (actualCommand : List Char) : Except (List Char) (List Char) :=
  if (stdoutBytes.take 1024).contains '\x00' then
    .error ("Command failed: ".toList ++ actualCommand ++ " - ".toList ++
      "Command returned binary data. Inline commands must return text: ".toList ++
      actualCommand)
  else
    if exitCode ≠ 0 then
      .error (commandFailMsg stdoutBytes stderrBytes exitCode actualCommand)
    else
      let output := commandCombined stdoutBytes stderrBytes
      let output :=
        if MAX_COMMAND_OUTPUT_SIZE < output.length then
          output.take MAX_COMMAND_OUTPUT_SIZE ++
            truncMarker (output.length - MAX_COMMAND_OUTPUT_SIZE)
        else output
      if !output.isEmpty then
        .ok (rawOpen ++ '\n' :: replaceAllList endrawLit endrawEscaped output ++
          '\n' :: endrawLit)
      else .ok output

/-! ## Injection phase (`injectResolvedImports`) -/

/-- The positional data of a parsed directive used by injection:
`full` is the matched substring, `index` its offset. -/
structure ParsedImport where
  full : List Char
  index : Nat
  deriving DecidableEq, Repr

/-- `ResolvedImportResult { import, content }` (the directive and its
replacement string).  The TS field `import` is a Lean keyword, hence
`imp`. -/
structure ResolvedImportResult where
  imp : ParsedImport
  content : List Char
  deriving DecidableEq, Repr

/-- One splice of the injection loop:
`result.slice(0, i) + replacement + result.slice(i + full.length)`. -/
def injectStep (result : List Char) (r : ResolvedImportResult) : List Char :=
  result.take r.imp.index ++ r.content ++ result.drop (r.imp.index + r.imp.full.length)

/-- `injectResolvedImports(content, resolved)`: sort by index
descending (JS `sort` is stable) and splice each replacement. -/
def injectResolvedImports (content : List Char) (resolved : List ResolvedImportResult) :
    List Char :=
  let sortedResolved := List.insertionSort (fun a b => b.imp.index ≤ a.imp.index) resolved
  sortedResolved.foldl injectStep content

/-! ## File imports (`processFileImport`) over an explicit filesystem

The filesystem is a finite map from paths to entries; a `file` entry
carries its text and whether the binary sniffer
(`isBinaryFileAsync`: known binary extension or a null byte in the
first 8 KiB) would flag it.  `stat`-like operations follow symlink
chains with fuel bounded by the filesystem size, so a cyclic chain
(`ELOOP`) yields `none` — which is how `Bun.file(path).exists()`
reports a self-referential symlink (its `stat` fails), and how
`realpathSync` throws for one. -/

inductive FsEntry where
  | file (content : List Char) (binary : Bool)
  | symlink (target : String)
  deriving DecidableEq, Repr

def Fs : Type := List (String × FsEntry)

/-- `stat` following symlinks: the target file's content and binary
flag, or `none` for a missing file or an unresolvable chain. -/
def statEntry (fs : Fs) (p : String) : Nat → Option (List Char × Bool)
  | 0 => none
  | fuel + 1 =>
    match objLookup fs p with
    | some (.file c b) => some (c, b)
    | some (.symlink t) => statEntry fs t fuel
    | none => none

/-- `Bun.file(path).exists()`. -/
def fsExists (fs : Fs) (p : String) : Bool :=
  (statEntry fs p (fs.length + 1)).isSome

/-- `realpathSync`, returning `none` where it would throw. -/
def realpathRec (fs : Fs) (p : String) : Nat → Option String
  | 0 => none
  | fuel + 1 =>
    match objLookup fs p with
    | some (.symlink t) => realpathRec fs t fuel
    | some (.file _ _) => some p
    | none => none

/-- `toCanonicalPath`: `realpathSync` with a catch-all falling back to
the original path. -/
def toCanonicalPath (fs : Fs) (p : String) : String :=
  (realpathRec fs p (fs.length + 1)).getD p

/-- `expandTilde`: `filePath.replace("~", homedir())` when the path is
`~` or starts with `~/` (prefix tests and splicing are done on the
character list). -/
def expandTilde (home : String) (filePath : String) : String :=
  if ['~', '/'].isPrefixOf filePath.toList || filePath = "~" then
    String.mk (home.toList ++ filePath.toList.drop 1)
  else filePath

/-- `resolveImportPath`: absolute paths (including expanded `~`) stay
as-is, relative paths resolve from the current file's directory (the
`resolve` call is modelled as plain joining; no `..` normalization is
exercised by the claims). -/
def resolveImportPath (home : String) (importPath : String) (currentFileDir : String) :
    String :=
  let expanded := expandTilde home importPath
  if ['/'].isPrefixOf expanded.toList then expanded
  else String.mk (currentFileDir.toList ++ '/' :: expanded.toList)

/-- `isGlobPattern` / `isGlobPatternInternal` (two identical copies in
the source). -/
def isGlobPattern (path : List Char) : Bool :=
  path.contains '*' || path.contains '?' || path.contains '['

/-- Index of the last occurrence of `c`. -/
def lastIndexOfChar (cs : List Char) (c : Char) : Option Nat :=
  ((cs.enum.filter (fun p => p.2 = c)).map Prod.fst).getLast?

/-- `[a-zA-Z_$]`. -/
def identStartChar (c : Char) : Bool := c.isAlpha || c = '_' || c = '$'

/-- `[a-zA-Z0-9_$]`. -/
def identChar (c : Char) : Bool := c.isAlpha || c.isDigit || c = '_' || c = '$'

/-- `parseSymbolExtraction` / `parseSymbolExtractionInternal`:
`^(.+)#([a-zA-Z_$][a-zA-Z0-9_$]*)$`.  The greedy `(.+)` makes the
match split at the last `#` when one matches at all; earlier `#`
positions cannot succeed because the identifier class excludes `#`.
The prefix must be non-empty (`.+`). -/
def parseSymbolExtraction (path : List Char) : Option (List Char × List Char) :=
  match lastIndexOfChar path '#' with
  | some i =>
    if 1 ≤ i then
      match path.drop (i + 1) with
      | [] => none
      | c :: rest =>
        if identStartChar c && rest.all identChar then
          some (path.take i, c :: rest)
        else none
    else none
  | none => none

/-- `parseLineRange` / `parseLineRangeInternal`:
`^(.+):(\d+)-(\d+)$`.  As above, the split is at the last `:` (the
digit/dash suffix excludes `:`), and the suffix must be exactly
`digits-digits`. -/
def parseLineRange (path : List Char) : Option (List Char × Nat × Nat) :=
  match lastIndexOfChar path ':' with
  | some i =>
    if 1 ≤ i then
      let suffix := path.drop (i + 1)
      let d1 := suffix.takeWhile Char.isDigit
      match d1, suffix.drop d1.length with
      | [], _ => none
      | _ :: _, '-' :: d2 =>
        if !d2.isEmpty && d2.all Char.isDigit then
          some (path.take i, digitsToNat d1, digitsToNat d2)
        else none
      | _ :: _, _ => none
    else none
  | none => none
where
  /-- `parseInt(digits, 10)`. -/
  digitsToNat (l : List Char) : Nat :=
    l.foldl (fun n c => n * 10 + (c.toNat - '0'.toNat)) 0

inductive ImportErr where
  | importNotFound (path resolved : String)
  | circularImport (chain : List String)
  | fileSizeLimit (resolved : String) (size : Nat)
  | binaryFileImport (path resolved : String)
  deriving DecidableEq, Repr

/-- Discriminator: the outcome is a `CircularImport` failure (with any
chain). -/
def isCircularErr {α : Type} : Except ImportErr α → Bool
  | .error (.circularImport _) => true
  | _ => false

/-- Where `processFileImport` hands off: the glob and symbol branches
dispatch to their own processors, the line-range branch returns the
extracted lines, and the regular branch recurses into `expandImports`
with the file's content and the grown stack. -/
inductive FileImportOutcome where
  | globDispatch (pattern : String)
  | symbolExtractDispatch (content : List Char) (symbolName : String)
  | fileContent (content : List Char)
  | recurse (content : List Char) (newStack : List String)
  deriving DecidableEq, Repr

/-- Embedding of `processFileImport`.  `maxInputSize` stands for the
configured `MAX_INPUT_SIZE` (its module is not among the sources;
modelled from the spec: files are rejected above the cap).  Note the
order in the regular branch: the existence check precedes canonical
resolution and the circular-import check. -/
def processFileImport (fs : Fs) (home : String) (maxInputSize : Nat)
    (importPath : String) (currentFileDir : String) (stack : List String) :
    Except ImportErr FileImportOutcome :=
  if isGlobPattern importPath.toList then .ok (.globDispatch importPath)
  else match parseSymbolExtraction importPath.toList with
  | some ps =>
    let p := String.mk ps.1
    let resolvedPath := resolveImportPath home p currentFileDir
    match statEntry fs resolvedPath (fs.length + 1) with
    | none => .error (.importNotFound p resolvedPath)
    | some cb =>
      if maxInputSize < cb.1.length then .error (.fileSizeLimit resolvedPath cb.1.length)
      else if cb.2 then .error (.binaryFileImport p resolvedPath)
      else .ok (.symbolExtractDispatch cb.1 (String.mk ps.2))
  | none => match parseLineRange importPath.toList with
  | some pr =>
    let p := String.mk pr.1
    let resolvedPath := resolveImportPath home p currentFileDir
    match statEntry fs resolvedPath (fs.length + 1) with
    | none => .error (.importNotFound p resolvedPath)
    | some cb =>
      if maxInputSize < cb.1.length then .error (.fileSizeLimit resolvedPath cb.1.length)
      else if cb.2 then .error (.binaryFileImport p resolvedPath)
      else .ok (.fileContent (extractLines cb.1 pr.2.1 pr.2.2))
  | none =>
    let resolvedPath := resolveImportPath home importPath currentFileDir
    match statEntry fs resolvedPath (fs.length + 1) with
    | none => .error (.importNotFound importPath resolvedPath)
    | some cb =>
      let canonicalPath := toCanonicalPath fs resolvedPath
      if stack.contains canonicalPath then
        .error (.circularImport (stack ++ [canonicalPath]))
      else if maxInputSize < cb.1.length then
        .error (.fileSizeLimit resolvedPath cb.1.length)
      else if cb.2 then .error (.binaryFileImport importPath resolvedPath)
      else .ok (.recurse cb.1 (stack ++ [canonicalPath]))

/-! ## Context-aware directive parser (`imports-parser.ts`)

`findSafeRanges` is a character scanner with three contexts; the four
directive regexes are translated to explicit matchers with JS
backtracking behaviour, and the `/g`-loop of `exec` becomes a
left-to-right scan that resumes at each match's end.  All recursion is
fuelled by the content length so every function evaluates by
`decide`/`rfl`; the fuel bounds loop iterations (the position advances
by at least one per step) and is never exhausted at the supplied
values. -/

structure Range where
  start : Nat
  «end» : Nat
  deriving DecidableEq, Repr

inductive ScanContext where
  | normal
  | fenced_code
  | inline_code
  deriving DecidableEq, Repr

/-- Position of the next `\n` at or after `i` (or the content length):
the `while (content[i] !== '\n') i++` loops. -/
def skipToNL (s : List Char) (i : Nat) : Nat :=
  i + runCount (fun c => c != '\n') s i

/-- The scanner loop of `findSafeRanges`, one recursive call per
iteration of the `while (i < content.length)` loop. -/
def findSafeRangesGo (content : List Char) (ctx : ScanContext) (rangeStart i : Nat)
    (fenceChar : Char) (fenceLen : Nat) (acc : List Range) : Nat → List Range
  | 0 => acc
  | fuel + 1 =>
    match content[i]? with
    | none =>
      if ctx = ScanContext.normal ∧ rangeStart < content.length then
        acc ++ [⟨rangeStart, content.length⟩]
      else acc
    | some c =>
      match ctx with
      | .normal =>
        let len := runCount (fun ch => ch == c) content i
        if (c == '`' || c == '~') && 3 ≤ len then
          let acc' := if rangeStart < i then acc ++ [⟨rangeStart, i⟩] else acc
          findSafeRangesGo content .fenced_code rangeStart (skipToNL content (i + len))
            c len acc' fuel
        else if c == '`' && content[i + 1]? ≠ some '`' then
          let acc' := if rangeStart < i then acc ++ [⟨rangeStart, i⟩] else acc
          findSafeRangesGo content .inline_code rangeStart (i + 1) fenceChar fenceLen acc' fuel
        else
          findSafeRangesGo content .normal rangeStart (i + 1) fenceChar fenceLen acc fuel
      | .fenced_code =>
        let atLineStart := i = 0 ∨ content[i - 1]? = some '\n'
        let len := runCount (fun ch => ch == fenceChar) content i
        if atLineStart ∧ c = fenceChar ∧ fenceLen ≤ len then
          let j := skipToNL content (i + len)
          let i' := if j < content.length then j + 1 else j
          findSafeRangesGo content .normal i' i' fenceChar fenceLen acc fuel
        else
          findSafeRangesGo content .fenced_code rangeStart (i + 1) fenceChar fenceLen acc fuel
      | .inline_code =>
        if c = '`' then
          findSafeRangesGo content .normal (i + 1) (i + 1) fenceChar fenceLen acc fuel
        else if c = '\n' then
          findSafeRangesGo content .normal i (i + 1) fenceChar fenceLen acc fuel
        else
          findSafeRangesGo content .inline_code rangeStart (i + 1) fenceChar fenceLen acc fuel

/-- `findSafeRanges(content)`. The initial fence character is JS `''`;
it is never compared before a fence opener assigns it, so any
placeholder serves. -/
def findSafeRanges (content : List Char) : List Range :=
  findSafeRangesGo content .normal 0 0 ' ' 0 [] (content.length + 1)

/-- `isInSafeRange(index, safeRanges)`. -/
def isInSafeRange (index : Nat) (safeRanges : List Range) : Bool :=
  safeRanges.any (fun r => r.start ≤ index && index < r.«end»)

/-- The `unsafeStarts` set built at the top of `parseImports`: offset 0
when content precedes the first safe range (or when there are no safe
ranges at all in non-empty content), plus every safe-range end that
falls short of the content length. -/
def unsafeStarts (content : List Char) : List Nat :=
  match findSafeRanges content with
  | [] => if 0 < content.length then [0] else []
  | r0 :: rest =>
    (if 0 < r0.start then [0] else []) ++
      (r0 :: rest).filterMap
        (fun r => if r.«end» < content.length then some r.«end» else none)

/-- `FILE_IMPORT_PATTERN = /@(~?[./][^\s]+)/g` matched at `i`; returns
the match end.  (If `~?` consumes a `~` that is not followed by `.` or
`/`, the regex backtracks to an empty `~?`, which then fails on
`[./]` against the `~` — so no separate fallback is needed.) -/
def matchFileAt (s : List Char) (i : Nat) : Option (Nat × Unit) :=
  match s[i]? with
  | some '@' =>
    let j := if s[i + 1]? = some '~' then i + 2 else i + 1
    match s[j]? with
    | some c =>
      if c = '.' ∨ c = '/' then
        let k := runCount (fun ch => !jsWhitespace ch) s (j + 1)
        if 1 ≤ k then some (j + 1 + k, ()) else none
      else none
    | none => none
  | _ => none

/-- `URL_IMPORT_PATTERN = /@(https?:\/\/[^\s]+)/g` matched at `i`. -/
def matchUrlAt (s : List Char) (i : Nat) : Option (Nat × Unit) :=
  match s[i]? with
  | some '@' =>
    if hasAt s (i + 1) ['h', 't', 't', 'p'] then
      let j := if s[i + 5]? = some 's' then i + 6 else i + 5
      if hasAt s j [':', '/', '/'] then
        let k := runCount (fun ch => !jsWhitespace ch) s (j + 3)
        if 1 ≤ k then some (j + 3 + k, ()) else none
      else none
    else none
  | _ => none

/-- Smallest `e' ≥ e` at which `delim` occurs (the lazy quantifier
before a backreference grows one character at a time). -/
def findDelimFrom (s delim : List Char) (e : Nat) : Nat → Option Nat
  | 0 => none
  | fuel + 1 =>
    if s.length < e + delim.length then none
    else if hasAt s e delim then some e
    else findDelimFrom s delim (e + 1) fuel

/-- Backtracking over the greedy `(`+)` of
`COMMAND_INLINE_PATTERN = /!(`+)([\s\S]+?)\1/g`: try the delimiter
lengths from the full backtick run down to one; for each, the lazy
content is the shortest non-empty stretch followed by the delimiter.
Returns `(match end, content start, content end)`. -/
def tryCmdDelims (s : List Char) (i : Nat) : Nat → Option (Nat × Nat × Nat)
  | 0 => none
  | j + 1 =>
    let cs := i + 1 + (j + 1)
    match findDelimFrom s (List.replicate (j + 1) '`') (cs + 1) (s.length + 1) with
    | some e => some (e + (j + 1), cs, e)
    | none => tryCmdDelims s i j

def matchCommandAt (s : List Char) (i : Nat) : Option (Nat × Nat × Nat) :=
  match s[i]? with
  | some '!' =>
    let r := runCount (fun ch => ch == '`') s (i + 1)
    if r = 0 then none else tryCmdDelims s i r
  | _ => none

/-- One attempt of
`EXECUTABLE_FENCE_PATTERN = /(`{3,})(.*?)\n(#![^\n]+)\n([\s\S]*?)\1/g`
with a fixed fence length `j`: the info string (`.` excludes `\n`)
must end at the first newline, the next line must read `#!` plus at
least one character, and the lazy code stretch ends at the first
occurrence of the backreferenced fence.  Returns
`(match end, (j, info end, shebang end, code start, code end))`. -/
def fenceAttempt (s : List Char) (i j : Nat) :
    Option (Nat × (Nat × Nat × Nat × Nat × Nat)) :=
  let nl := skipToNL s (i + j)
  if nl < s.length then
    if s[nl + 1]? = some '#' ∧ s[nl + 2]? = some '!' then
      let m := runCount (fun ch => ch != '\n') s (nl + 3)
      if 1 ≤ m then
        let sbEnd := nl + 3 + m
        if s[sbEnd]? = some '\n' then
          match findDelimFrom s (List.replicate j '`') (sbEnd + 1) (s.length + 1) with
          | some e => some (e + j, (j, nl, sbEnd, sbEnd + 1, e))
          | none => none
        else none
      else none
    else none
  else none

/-- Backtracking over the greedy `(`{3,})`: fence lengths from the full
run down to three. -/
def tryFenceDelims (s : List Char) (i : Nat) :
    Nat → Option (Nat × (Nat × Nat × Nat × Nat × Nat))
  | 0 => none
  | j + 1 =>
    if j + 1 < 3 then none
    else match fenceAttempt s i (j + 1) with
      | some res => some res
      | none => tryFenceDelims s i j

def matchFenceAt (s : List Char) (i : Nat) :
    Option (Nat × (Nat × Nat × Nat × Nat × Nat)) :=
  match s[i]? with
  | some '`' =>
    let r := runCount (fun ch => ch == '`') s i
    if r < 3 then none else tryFenceDelims s i r
  | _ => none

/-- The `while ((match = re.exec(content)))` loop of a `/g` regex:
find the leftmost match at or after the current position, emit it, and
resume at its end.  `matchAt` returns the match end plus
pattern-specific capture data; results are `(index, end, captures)`. -/
def scanPattern {τ : Type} (n : Nat) (matchAt : Nat → Option (Nat × τ)) :
    Nat → Nat → List (Nat × Nat × τ)
  | _, 0 => []
  | i, fuel + 1 =>
    if n ≤ i then []
    else match matchAt i with
      | some et => (i, et.1, et.2) :: scanPattern n matchAt et.1 fuel
      | none => scanPattern n matchAt (i + 1) fuel

/-- `content.slice(a, b)` for strings. -/
def sliceList (s : List Char) (a b : Nat) : List Char := (s.take b).drop a

/-- `ImportAction` (the directive list element type). -/
inductive ImportAction where
  | file (path : List Char) (lineRange : Option (Nat × Nat)) (original : List Char)
      (index : Nat)
  | glob (pattern : List Char) (original : List Char) (index : Nat)
  | symbol (path symbolName : List Char) (original : List Char) (index : Nat)
  | url (url : List Char) (original : List Char) (index : Nat)
  | command (command : List Char) (original : List Char) (index : Nat)
  | executable_code_fence (language shebang code : List Char) (original : List Char)
      (index : Nat)
  deriving DecidableEq, Repr

def ImportAction.index : ImportAction → Nat
  | .file _ _ _ i => i
  | .glob _ _ i => i
  | .symbol _ _ _ i => i
  | .url _ _ i => i
  | .command _ _ i => i
  | .executable_code_fence _ _ _ _ i => i

def ImportAction.original : ImportAction → List Char
  | .file _ _ o _ => o
  | .glob _ o _ => o
  | .symbol _ _ o _ => o
  | .url _ o _ => o
  | .command _ o _ => o
  | .executable_code_fence _ _ _ o _ => o

def ImportAction.isExecFence : ImportAction → Bool
  | .executable_code_fence _ _ _ _ _ => true
  | _ => false

instance : IsTotal ImportAction (fun a b => a.index ≤ b.index) :=
  ⟨fun a b => Nat.le_total a.index b.index⟩

instance : IsTrans ImportAction (fun a b => a.index ≤ b.index) :=
  ⟨fun _ _ _ h1 h2 => Nat.le_trans h1 h2⟩

/-- `parseFileImportPath(fullMatch, path, index)`: glob, then symbol
extraction, then line range, then plain file. -/
def parseFileImportPath (fullMatch path : List Char) (index : Nat) : ImportAction :=
  if isGlobPattern path then .glob path fullMatch index
  else match parseSymbolExtraction path with
    | some ps => .symbol ps.1 ps.2 fullMatch index
    | none => match parseLineRange path with
      | some pr => .file pr.1 (some (pr.2.1, pr.2.2)) fullMatch index
      | none => .file path none fullMatch index

/-- The file-import scan loop of `parseImports`: matches kept only when
their index lies in a safe range and the captured path is non-empty. -/
def fileActions (content : List Char) : List ImportAction :=
  (scanPattern content.length (matchFileAt content) 0 (content.length + 1)).filterMap
    (fun m =>
      if isInSafeRange m.1 (findSafeRanges content) &&
          !(sliceList content (m.1 + 1) m.2.1).isEmpty then
        some (parseFileImportPath (sliceList content m.1 m.2.1)
          (sliceList content (m.1 + 1) m.2.1) m.1)
      else none)

/-- The URL scan loop of `parseImports`. -/
def urlActions (content : List Char) : List ImportAction :=
  (scanPattern content.length (matchUrlAt content) 0 (content.length + 1)).filterMap
    (fun m =>
      if isInSafeRange m.1 (findSafeRanges content) &&
          !(sliceList content (m.1 + 1) m.2.1).isEmpty then
        some (ImportAction.url (sliceList content (m.1 + 1) m.2.1)
          (sliceList content m.1 m.2.1) m.1)
      else none)

/-- The inline-command scan loop of `parseImports`. -/
def commandActions (content : List Char) : List ImportAction :=
  (scanPattern content.length (matchCommandAt content) 0 (content.length + 1)).filterMap
    (fun m =>
      if isInSafeRange m.1 (findSafeRanges content) &&
          !(sliceList content m.2.2.1 m.2.2.2).isEmpty then
        some (ImportAction.command (sliceList content m.2.2.1 m.2.2.2)
          (sliceList content m.1 m.2.1) m.1)
      else none)

/-- The executable-fence scan loop of `parseImports`: matches kept only
when their index is a recorded unsafe start (a top-level fence opening)
and the shebang capture is non-empty. -/
def fenceActions (content : List Char) : List ImportAction :=
  (scanPattern content.length (matchFenceAt content) 0 (content.length + 1)).filterMap
    (fun m =>
      if (unsafeStarts content).contains m.1 then
        let infoString := sliceList content (m.1 + m.2.2.1) m.2.2.2.1
        let shebang := sliceList content (m.2.2.2.1 + 1) m.2.2.2.2.1
        let language := (jsTrim infoString).takeWhile (fun c => !jsWhitespace c)
        if !shebang.isEmpty then
          some (ImportAction.executable_code_fence
            (if language.isEmpty then "txt".toList else language) shebang
            (jsTrim (sliceList content m.2.2.2.2.2.1 m.2.2.2.2.2.2))
            (sliceList content m.1 m.2.1) m.1)
        else none
      else none)

/-- Embedding of `parseImports(content)`: the context-aware parser.
Each pattern is scanned over the whole content; file, URL and command
matches are kept only when their index lies in a safe range (and the
relevant capture group is non-empty, as the source checks), executable
fences only when their index is a recorded unsafe start.  The combined
list is sorted ascending by index (JS `sort` is stable). -/
def parseImports (content : List Char) : List ImportAction :=
  List.insertionSort (fun a b => a.index ≤ b.index)
    (fileActions content ++ urlActions content ++ commandActions content ++
      fenceActions content)

/-! ## Theorems -/

/-- **C10.** Line-range extraction is total and clamping: for every
content and 1-indexed inclusive range `start..end`, `extractLines`
returns the lines from `max 1 start` through `min lineCount end`
joined by newlines; out-of-file ranges are clamped rather than
erroring, and an empty clamped range yields the empty string. -/
theorem extractLines_clamping (content : List Char) (start e : Nat) :
    extractLines content start e =
      joinNl (((splitNl content).take (min (splitNl content).length e)).drop
        (max 1 start - 1)) ∧
    (min (splitNl content).length e < max 1 start → extractLines content start e = []) := by
  have hidx : max 0 (start - 1) = max 1 start - 1 := by omega
  refine ⟨by simp only [extractLines, hidx], fun h => ?_⟩
  simp only [extractLines, hidx]
  have hlen : ((splitNl content).take (min (splitNl content).length e)).length ≤
      max 1 start - 1 := by
    rw [List.length_take]; omega
  rw [List.drop_eq_nil_of_le hlen]
  rfl

/-- Witness for C10 at a fully out-of-range request. -/
theorem extractLines_clamping_witness : extractLines "l1\nl2".toList 5 9 = [] :=
  (extractLines_clamping "l1\nl2".toList 5 9).2 (by decide)

/-- The six-clause activation disjunction of `applyInteractiveMode`
collapses: every special case (`true`, `""`, present `null`) already
satisfies "neither `undefined` nor `false`". -/
theorem interactiveMode_collapse (ext hik hik2 : Bool) (v : JsValue) :
    (ext || jsIsTrue v || jsIsEmptyStr v || (hik && jsIsNull v) || (hik2 && jsIsNull v) ||
      (!jsIsUndef v && !jsIsFalse v)) = (ext || (!jsIsUndef v && !jsIsFalse v)) := by
  cases v with
  | bool b =>
    cases b <;> simp [jsIsTrue, jsIsEmptyStr, jsIsNull, jsIsUndef, jsIsFalse]
  | str s =>
    cases s <;> simp [jsIsTrue, jsIsEmptyStr, jsIsNull, jsIsUndef, jsIsFalse]
  | num n => simp [jsIsTrue, jsIsEmptyStr, jsIsNull, jsIsUndef, jsIsFalse]
  | null => simp [jsIsTrue, jsIsEmptyStr, jsIsNull, jsIsUndef, jsIsFalse]
  | undef => simp [jsIsTrue, jsIsEmptyStr, jsIsNull, jsIsUndef, jsIsFalse]
  | list vs => simp [jsIsTrue, jsIsEmptyStr, jsIsNull, jsIsUndef, jsIsFalse]
  | obj fields => simp [jsIsTrue, jsIsEmptyStr, jsIsNull, jsIsUndef, jsIsFalse]

/-- **C5 (amended).** `applyInteractiveMode` applies the adapter's
interactive transform with the `_interactive`/`_i` keys removed
exactly when the external flag is set or the *governing* value — the
value of `_interactive` if that key is present, else of `_i` — is
neither `undefined` (absent) nor literally `false`; otherwise it
returns the front matter unchanged.  (In particular
`_interactive: false` masks a truthy `_i`.) -/
theorem applyInteractiveMode_gating
    (getAdapter : String → AgentFrontmatter → AgentFrontmatter)
    (frontmatter : AgentFrontmatter) (command : String)
    (interactiveFromExternal : Bool) :
    applyInteractiveMode getAdapter frontmatter command interactiveFromExternal =
      if interactiveFromExternal ||
          (!jsIsUndef (governingValue frontmatter) &&
           !jsIsFalse (governingValue frontmatter)) then
        getAdapter command (objDelete (objDelete frontmatter "_interactive") "_i")
      else frontmatter := by
  have if_bool_not : ∀ (b : Bool) (x y : AgentFrontmatter),
      (if (!b) = true then x else y) = if b = true then y else x := by
    intro b x y; cases b <;> simp
  unfold applyInteractiveMode governingValue
  dsimp only
  rw [interactiveMode_collapse]
  exact if_bool_not _ _ _

/-- **C5 counterexample.** In `{_interactive: false, _i: true}` the key
`_i` is present with a value other than literal `false`, so the claim
demands activation (meta-keys dropped, adapter transform applied); the
code instead returns the front matter unchanged, `_i` still present
(the transform would have emptied this two-entry object). -/
theorem applyInteractiveMode_counterexample :
    applyInteractiveMode (fun _ r => r)
        [("_interactive", JsValue.bool false), ("_i", JsValue.bool true)] "claude" false =
      [("_interactive", JsValue.bool false), ("_i", JsValue.bool true)] ∧
    objLookup [("_interactive", JsValue.bool false), ("_i", JsValue.bool true)] "_i" =
      some (JsValue.bool true) ∧
    ([("_interactive", JsValue.bool false), ("_i", JsValue.bool true)] :
      AgentFrontmatter).length = 2 ∧
    (objDelete (objDelete
      [("_interactive", JsValue.bool false), ("_i", JsValue.bool true)]
      "_interactive") "_i").length = 0 :=
  ⟨rfl, rfl, rfl, rfl⟩

/-- `toFlag` agrees with the claim's (amended) flag rendering. -/
theorem toFlag_eq_flagForKey (key : String) : toFlag key = flagForKey key := rfl

/-- Each loop iteration of `buildArgs` appends its contribution. -/
theorem buildArgsStep_append (tv : List String) (a : List (List Char))
    (kv : String × JsValue) :
    buildArgsStep tv a kv = a ++ buildArgsStep tv [] kv := by
  unfold buildArgsStep
  dsimp only
  repeat' split
  all_goals simp

/-- `foldl` over `buildArgsStep` from any accumulator. -/
theorem foldl_buildArgsStep (tv : List String) :
    ∀ (fm : List (String × JsValue)) (a : List (List Char)),
      fm.foldl (buildArgsStep tv) a = a ++ fm.foldl (buildArgsStep tv) []
  | [], a => by simp
  | kv :: fm, a => by
    rw [List.foldl_cons, List.foldl_cons,
      foldl_buildArgsStep tv fm (buildArgsStep tv a kv),
      foldl_buildArgsStep tv fm (buildArgsStep tv [] kv),
      buildArgsStep_append tv a kv, List.append_assoc]

/-- One entry's contribution matches the claim's rules. -/
theorem buildArgsStep_nil_eq_chunk (tv : List String) (kv : String × JsValue) :
    buildArgsStep tv [] kv = buildArgsSpecChunk tv kv := by
  rcases kv with ⟨k, v⟩
  unfold buildArgsStep buildArgsSpecChunk
  dsimp only
  cases h1 : (k == "args") <;> cases h2 : isPositionalKey k <;>
    cases h3 : strStartsWith k '$' <;> cases h4 : strStartsWith k '_' <;>
    cases h5 : tv.contains k <;>
    simp only [h1, h2, h3, h4, h5, Bool.false_or, Bool.true_or, Bool.or_true,
      Bool.or_false, if_true, if_false, Bool.true_and, Bool.false_and,
      ite_true, ite_false]
  all_goals try rfl
  cases v with
  | bool b =>
    cases b <;>
      simp [jsIsUndef, jsIsNull, jsIsFalse, jsIsTrue, jsIsPlainObject,
        toFlag_eq_flagForKey]
  | str s =>
    simp [jsIsUndef, jsIsNull, jsIsFalse, jsIsTrue, jsIsPlainObject,
      toFlag_eq_flagForKey]
  | num n =>
    simp [jsIsUndef, jsIsNull, jsIsFalse, jsIsTrue, jsIsPlainObject,
      toFlag_eq_flagForKey]
  | null =>
    simp [jsIsUndef, jsIsNull, jsIsFalse, jsIsTrue, jsIsPlainObject,
      toFlag_eq_flagForKey]
  | undef =>
    simp [jsIsUndef, jsIsNull, jsIsFalse, jsIsTrue, jsIsPlainObject,
      toFlag_eq_flagForKey]
  | list vs =>
    simp [jsIsUndef, jsIsNull, jsIsFalse, jsIsTrue, jsIsPlainObject,
      toFlag_eq_flagForKey]
  | obj fields =>
    cases h6 : (k == "env") <;>
      simp [h6, jsIsUndef, jsIsNull, jsIsFalse, jsIsTrue, jsIsPlainObject,
        toFlag_eq_flagForKey]

/-- **C7 (amended).** The argument compiler equals, entry by entry, the
claim's rules: no flag is derived from the system key `args`, from
`^\$\d+$` positional mappings, from keys starting `$` or `_`, from
template variables, or from the object form of `env`;
`null`/`undefined`/`false` values emit nothing, `true` emits the flag
alone, lists emit the flag once per element followed by the element,
and other values emit the flag followed by the stringified value —
with keys already starting with `-` passed through verbatim,
other single-character keys rendered `-k`, and longer keys `--key`. -/
theorem buildArgs_eq_spec (frontmatter : AgentFrontmatter) (templateVars : List String) :
    buildArgs frontmatter templateVars = buildArgsSpec frontmatter templateVars := by
  induction frontmatter with
  | nil => rfl
  | cons kv fm ih =>
    show (kv :: fm).foldl (buildArgsStep templateVars) [] = _
    rw [List.foldl_cons, foldl_buildArgsStep templateVars fm (buildArgsStep templateVars [] kv)]
    unfold buildArgsSpec
    rw [List.flatMap_cons, ← buildArgsStep_nil_eq_chunk templateVars kv]
    exact congrArg _ ih

/-- **C7 counterexample.** A key that already starts with `-` is passed
through as-is by `toFlag`, not rendered `--key` as the claim's
"multi-character keys as `--key`" prescribes. -/
theorem buildArgs_dashKey_counterexample :
    buildArgs [("-foo", JsValue.bool true)] [] = [['-', 'f', 'o', 'o']] ∧
    (['-', 'f', 'o', 'o'] : List Char) ≠ '-' :: '-' :: "-foo".toList :=
  ⟨rfl, by decide⟩

/-- Following a self-referential symlink never resolves: `stat` on it
fails (`ELOOP`) whatever the fuel. -/
theorem statEntry_selfloop (fs : Fs) (p : String)
    (h : objLookup fs p = some (.symlink p)) :
    ∀ fuel, statEntry fs p fuel = none
  | 0 => rfl
  | fuel + 1 => by
    rw [statEntry, h]
    exact statEntry_selfloop fs p h fuel

/-- **C4 (amended).** A plain file import whose resolved path is a
symlink pointing at itself fails with the *Import not found* error
(the `FileNotFound` kind): `Bun.file(...).exists()` is checked before
canonical-path resolution and the circular-import check, and `stat` of
a self-referential symlink fails, so the import never reaches the
`CircularImport` branch — whatever the import stack contains. -/
theorem processFileImport_self_symlink (fs : Fs) (home : String) (maxInputSize : Nat)
    (importPath currentFileDir : String) (stack : List String)
    (hglob : isGlobPattern importPath.toList = false)
    (hsym : parseSymbolExtraction importPath.toList = none)
    (hrange : parseLineRange importPath.toList = none)
    (hlink : objLookup fs (resolveImportPath home importPath currentFileDir) =
      some (FsEntry.symlink (resolveImportPath home importPath currentFileDir))) :
    processFileImport fs home maxInputSize importPath currentFileDir stack =
      .error (.importNotFound importPath
        (resolveImportPath home importPath currentFileDir)) := by
  unfold processFileImport
  rw [hglob, hsym, hrange]
  simp only [Bool.false_eq_true, if_false]
  rw [statEntry_selfloop fs _ hlink]

/-- Witness for C4 (amended) at a concrete self-symlink. -/
theorem processFileImport_self_symlink_witness :
    processFileImport [("/self.md", FsEntry.symlink "/self.md")] "/home" 7 "/self.md"
      "/tmp" ["/other.md"] = .error (.importNotFound "/self.md" "/self.md") :=
  processFileImport_self_symlink _ _ _ _ _ _ (by decide) (by decide) (by decide) (by decide)

/-- **C4 counterexample.** The claim says a self-symlink import fails
with `CircularImport` and "not with any other error kind such as
FileNotFound"; on the code it is exactly the not-found error, and not
a circular-import error of any chain. -/
theorem processFileImport_self_symlink_counterexample :
    processFileImport [("/self.md", FsEntry.symlink "/self.md")] "/home" 1000000
      "/self.md" "/" [] = .error (.importNotFound "/self.md" "/self.md") ∧
    isCircularErr (processFileImport [("/self.md", FsEntry.symlink "/self.md")] "/home"
      1000000 "/self.md" "/" []) = false := by
  refine ⟨rfl, rfl⟩

instance : IsTotal ResolvedImportResult (fun a b => b.imp.index ≤ a.imp.index) :=
  ⟨fun a b => (Nat.le_total a.imp.index b.imp.index).symm⟩

instance : IsTrans ResolvedImportResult (fun a b => b.imp.index ≤ a.imp.index) :=
  ⟨fun _ _ _ hab hbc => Nat.le_trans hbc hab⟩

/-- One splice changes the length by `replacement − original` whenever
the directive's span fits in the current string. -/
theorem injectStep_length (s : List Char) (r : ResolvedImportResult)
    (h : r.imp.index + r.imp.full.length ≤ s.length) :
    ((injectStep s r).length : Int) =
      s.length + ((r.content.length : Int) - r.imp.full.length) := by
  unfold injectStep
  simp only [List.length_append, List.length_take, List.length_drop]
  omega

/-- Folding splices over a list that is descending and span-disjoint
(each later directive ends at or before the previous one starts)
accumulates the length deltas. -/
theorem injectFold_length :
    ∀ (l : List ResolvedImportResult) (s : List Char),
      (∀ r ∈ l, r.imp.index + r.imp.full.length ≤ s.length) →
      l.Pairwise (fun a b => b.imp.index + b.imp.full.length ≤ a.imp.index) →
      ((l.foldl injectStep s).length : Int) =
        s.length + (l.map (fun r => (r.content.length : Int) - r.imp.full.length)).sum
  | [], s, _, _ => by simp
  | r :: l, s, hb, hp => by
    have hr := hb r (List.mem_cons_self r l)
    have hstep := injectStep_length s r hr
    have hhead := (List.pairwise_cons.mp hp).1
    have hb' : ∀ x ∈ l, x.imp.index + x.imp.full.length ≤ (injectStep s r).length := by
      intro x hx
      have h1 := hhead x hx
      have h2 : (r.imp.index : Int) ≤ (injectStep s r).length := by
        rw [hstep]; omega
      omega
    rw [List.foldl_cons,
      injectFold_length l (injectStep s r) hb' (List.pairwise_cons.mp hp).2,
      hstep, List.map_cons, List.sum_cons]
    ring

/-- **C3 (amended).** For every body and resolved-directive list whose
originals occur at their indices, whose originals are non-empty, and
whose spans are pairwise non-overlapping, the injected body's length
equals the body length plus the sum of `len(replacement) −
len(original)` (injection splices in descending index order). -/
theorem injectResolvedImports_length (content : List Char)
    (resolved : List ResolvedImportResult)
    (hin : ∀ r ∈ resolved, r.imp.index + r.imp.full.length ≤ content.length ∧
      sliceList content r.imp.index (r.imp.index + r.imp.full.length) = r.imp.full)
    (hne : ∀ r ∈ resolved, 1 ≤ r.imp.full.length)
    (hdisj : resolved.Pairwise (fun a b => a.imp.index + a.imp.full.length ≤ b.imp.index ∨
      b.imp.index + b.imp.full.length ≤ a.imp.index)) :
    ((injectResolvedImports content resolved).length : Int) =
      content.length +
        (resolved.map (fun r => (r.content.length : Int) - r.imp.full.length)).sum := by
  unfold injectResolvedImports
  have hperm := List.perm_insertionSort (fun a b => b.imp.index ≤ a.imp.index) resolved
  have hsorted := List.sorted_insertionSort (fun a b => b.imp.index ≤ a.imp.index) resolved
  have hdisj' := (hperm.pairwise_iff (fun hxy => hxy.symm)).mpr hdisj
  have hdesc := (hsorted.and hdisj').imp_of_mem (by
    intro a b ha hb h
    have hna := hne a (hperm.subset ha)
    have hnb := hne b (hperm.subset hb)
    rcases h.2 with h2 | h2
    · omega
    · exact h2)
  have hb : ∀ r ∈ List.insertionSort (fun a b => b.imp.index ≤ a.imp.index) resolved,
      r.imp.index + r.imp.full.length ≤ content.length :=
    fun r hr => (hin r (hperm.subset hr)).1
  rw [injectFold_length _ content hb hdesc,
    (hperm.map (fun r => (r.content.length : Int) - r.imp.full.length)).sum_eq]

/-- Witness for C3 (amended): one resolved directive, span `[2, 6)` of
a 9-character body, replacement of length 2. -/
theorem injectResolvedImports_length_witness :
    ((injectResolvedImports "ab@./x cd".toList
        [⟨⟨"@./x".toList, 2⟩, "XY".toList⟩]).length : Int) =
      ("ab@./x cd".toList).length +
        (([⟨⟨"@./x".toList, 2⟩, "XY".toList⟩] : List ResolvedImportResult).map
          (fun r => (r.content.length : Int) - r.imp.full.length)).sum :=
  injectResolvedImports_length _ _ (by decide) (by decide) (by decide)

/-- **C3 counterexample.** Two resolved directives whose originals both
occur at their indices (`"abc"` at 0 and `"bc"` at 1 in body `"abc"`)
but overlap: the injected body is empty (length 0) while the claim's
formula demands `3 + (0−3) + (0−2) = −2`. -/
theorem injectResolvedImports_length_counterexample :
    injectResolvedImports "abc".toList
        [⟨⟨"abc".toList, 0⟩, []⟩, ⟨⟨"bc".toList, 1⟩, []⟩] = [] ∧
    sliceList "abc".toList 0 (0 + ("abc".toList).length) = "abc".toList ∧
    sliceList "abc".toList 1 (1 + ("bc".toList).length) = "bc".toList ∧
    ((injectResolvedImports "abc".toList
        [⟨⟨"abc".toList, 0⟩, []⟩, ⟨⟨"bc".toList, 1⟩, []⟩]).length : Int) ≠
      ("abc".toList).length +
        (([⟨⟨"abc".toList, 0⟩, []⟩, ⟨⟨"bc".toList, 1⟩, []⟩] :
          List ResolvedImportResult).map
          (fun r => (r.content.length : Int) - r.imp.full.length)).sum :=
  ⟨by decide, by decide, by decide, by decide⟩

/-- In a string with no occurrence of `pat`, no position starts one. -/
theorem containsSub_false_head (pat : List Char) (c : Char) (rest : List Char)
    (h : containsSub pat (c :: rest) = false) :
    pat.isPrefixOf (c :: rest) = false := by
  have h0 := (List.any_eq_false.mp h) 0 (List.mem_range.mpr (Nat.succ_pos _))
  simp only [hasAt, List.drop_zero] at h0
  exact Bool.eq_false_iff.mpr h0

/-- Occurrence-freedom passes to the tail. -/
theorem containsSub_false_tail (pat : List Char) (c : Char) (rest : List Char)
    (h : containsSub pat (c :: rest) = false) :
    containsSub pat rest = false := by
  refine List.any_eq_false.mpr (fun i hi => ?_)
  have := (List.any_eq_false.mp h) (i + 1) (by
    simp only [List.mem_range, List.length_cons] at hi ⊢
    omega)
  simpa [hasAt] using this

/-- The `{% endraw %}` sanitizer is the identity on occurrence-free
text. -/
theorem replaceAllGo_of_not_contains (pat rep : List Char) :
    ∀ (fuel : Nat) (s : List Char), containsSub pat s = false →
      replaceAllGo pat rep s fuel = s
  | 0, s, _ => by cases s <;> rfl
  | _ + 1, [], _ => rfl
  | fuel + 1, c :: rest, h => by
    rw [replaceAllGo]
    rw [if_neg, replaceAllGo_of_not_contains pat rep fuel rest
      (containsSub_false_tail pat c rest h)]
    simp [containsSub_false_head pat c rest h]

theorem replaceAllList_of_not_contains (pat rep s : List Char)
    (h : containsSub pat s = false) : replaceAllList pat rep s = s :=
  replaceAllGo_of_not_contains pat rep s.length s h

/-- **C6 (amended).** For an executed inline command (no binary
stdout): on exit 0 with a non-empty combined output
(`stderr\nstdout` when both post-trim, post-ANSI-strip streams are
non-empty, else the non-empty one) that is within the 100 000-character
cap and free of literal `{% endraw %}`, the replacement is exactly
`{% raw %}\n<output>\n{% endraw %}`; on exit 0 with empty combined
output the replacement is the empty string (not wrapped); on non-zero
exit the resolution fails with a message containing the command text,
the exit code, and stderr (or stdout when stderr is empty). -/
theorem commandInlineOutput_cases (outB errB cmd : List Char) (exitCode : Int)
    (hbin : (outB.take 1024).contains '\x00' = false) :
    ((exitCode = 0 ∧ commandCombined outB errB ≠ [] ∧
        (commandCombined outB errB).length ≤ MAX_COMMAND_OUTPUT_SIZE ∧
        containsSub endrawLit (commandCombined outB errB) = false) →
      commandInlineOutput outB errB exitCode cmd =
        .ok (rawOpen ++ '\n' :: commandCombined outB errB ++ '\n' :: endrawLit)) ∧
    ((exitCode = 0 ∧ commandCombined outB errB = []) →
      commandInlineOutput outB errB exitCode cmd = .ok []) ∧
    (exitCode ≠ 0 →
      commandInlineOutput outB errB exitCode cmd =
        .error (commandFailMsg outB errB exitCode cmd) ∧
      cmd <:+: commandFailMsg outB errB exitCode cmd ∧
      (toString exitCode).toList <:+: commandFailMsg outB errB exitCode cmd ∧
      (if ansiStrip (jsTrim errB) ≠ [] then ansiStrip (jsTrim errB)
       else ansiStrip (jsTrim outB)) <:+: commandFailMsg outB errB exitCode cmd) := by
  refine ⟨fun ⟨h0, hne, hlen, hnoc⟩ => ?_, fun ⟨h0, hemp⟩ => ?_, fun hnz => ?_⟩
  · subst h0
    have h1 : ¬ (MAX_COMMAND_OUTPUT_SIZE < (commandCombined outB errB).length) := by
      omega
    have h2 : (commandCombined outB errB).isEmpty = false := by
      cases h : (commandCombined outB errB).isEmpty
      · rfl
      · exact absurd (List.isEmpty_iff.mp h) hne
    unfold commandInlineOutput
    rw [if_neg (by rw [hbin]; simp), if_neg (by simp : ¬ ((0 : Int) ≠ 0))]
    dsimp only
    rw [if_neg h1, if_pos (by rw [h2]; rfl),
      replaceAllList_of_not_contains _ _ _ hnoc]
  · subst h0
    unfold commandInlineOutput
    rw [if_neg (by rw [hbin]; simp), if_neg (by simp : ¬ ((0 : Int) ≠ 0))]
    dsimp only
    rw [hemp]
    rfl
  · unfold commandInlineOutput
    rw [if_neg (by rw [hbin]; simp), if_pos hnz]
    have hEmptyF : ∀ l : List Char, l ≠ [] → l.isEmpty = false := by
      intro l h
      cases l
      · exact absurd rfl h
      · rfl
    refine ⟨rfl, ?_, ?_, ?_⟩
    · refine ⟨"Command failed (Exit ".toList ++ (toString exitCode).toList ++ "): ".toList,
        '\n' :: "Output: ".toList ++
          (if !(ansiStrip (jsTrim errB)).isEmpty then ansiStrip (jsTrim errB)
           else if !(ansiStrip (jsTrim outB)).isEmpty then ansiStrip (jsTrim outB)
           else "No output".toList), ?_⟩
      unfold commandFailMsg
      simp [List.append_assoc]
    · refine ⟨"Command failed (Exit ".toList,
        "): ".toList ++ cmd ++ '\n' :: "Output: ".toList ++
          (if !(ansiStrip (jsTrim errB)).isEmpty then ansiStrip (jsTrim errB)
           else if !(ansiStrip (jsTrim outB)).isEmpty then ansiStrip (jsTrim outB)
           else "No output".toList), ?_⟩
      unfold commandFailMsg
      simp [List.append_assoc]
    · by_cases he : ansiStrip (jsTrim errB) = []
      · by_cases ho : ansiStrip (jsTrim outB) = []
        · exact ⟨[], commandFailMsg outB errB exitCode cmd, by simp [he, ho]⟩
        · refine ⟨"Command failed (Exit ".toList ++ (toString exitCode).toList ++
            "): ".toList ++ cmd ++ '\n' :: "Output: ".toList, [], ?_⟩
          unfold commandFailMsg
          simp [he, ho, hEmptyF _ ho, List.append_assoc]
      · refine ⟨"Command failed (Exit ".toList ++ (toString exitCode).toList ++
          "): ".toList ++ cmd ++ '\n' :: "Output: ".toList, [], ?_⟩
        unfold commandFailMsg
        simp [he, hEmptyF _ he, List.append_assoc]

/-- Witness for C6 (amended): `echo`-style run with stdout `"hi"`,
empty stderr, exit 0. -/
theorem commandInlineOutput_cases_witness :
    commandInlineOutput "hi".toList [] 0 "echo hi".toList =
      .ok (rawOpen ++ '\n' :: commandCombined "hi".toList [] ++ '\n' :: endrawLit) :=
  (commandInlineOutput_cases "hi".toList [] "echo hi".toList 0 (by decide)).1
    ⟨rfl, by decide, by decide, by decide⟩

/-- **C6 counterexample.** A zero-exit command whose streams are both
empty after trimming: the claim's replacement would be
`{% raw %}\n\n{% endraw %}`, but the code returns the empty string
unwrapped. -/
theorem commandInlineOutput_empty_counterexample :
    commandInlineOutput [] [] 0 "true".toList = .ok [] ∧
    ([] : List Char) ≠ rawOpen ++ '\n' :: [] ++ '\n' :: endrawLit :=
  ⟨rfl, by decide⟩

/-! ### JS-object lemmas for the config merge -/

theorem objLookup_objSet {V : Type} (o : List (String × V)) (k : String) (v : V)
    (q : String) :
    objLookup (objSet o k v) q = if k = q then some v else objLookup o q := by
  induction o with
  | nil =>
    by_cases hq : k = q <;> simp [objSet, objLookup, hq]
  | cons p rest ih =>
    obtain ⟨k1, v1⟩ := p
    by_cases h1 : k1 = k
    · subst h1
      by_cases hq : k1 = q <;> simp [objSet, objLookup, hq]
    · by_cases hq : k1 = q
      · subst hq
        have hk : ¬ k = k1 := fun h => h1 h.symm
        simp [objSet, objLookup, h1, hk]
      · simp [objSet, objLookup, h1, hq, ih]

theorem objSet_objSet {V : Type} (o : List (String × V)) (k : String) (y z : V) :
    objSet (objSet o k z) k y = objSet o k y := by
  induction o with
  | nil => simp [objSet]
  | cons p rest ih =>
    obtain ⟨k1, v1⟩ := p
    by_cases h1 : k1 = k
    · subst h1; simp [objSet]
    · simp [objSet, h1, ih]

theorem objKeys_cons {V : Type} (k : String) (v : V) (o : List (String × V)) :
    objKeys ((k, v) :: o) = k :: objKeys o := rfl

theorem objSet_cons_ne {V : Type} (k1 : String) (v1 : V) (o : List (String × V))
    (k : String) (v : V) (h : ¬ k1 = k) :
    objSet ((k1, v1) :: o) k v = (k1, v1) :: objSet o k v := by
  simp [objSet, h]

theorem objSet_cons_eq {V : Type} (k1 : String) (v1 : V) (o : List (String × V))
    (v : V) : objSet ((k1, v1) :: o) k1 v = (k1, v) :: o := by
  simp [objSet]

theorem objKeys_objSet {V : Type} (o : List (String × V)) (k : String) (v : V) :
    objKeys (objSet o k v) = if k ∈ objKeys o then objKeys o else objKeys o ++ [k] := by
  induction o with
  | nil => simp [objSet, objKeys]
  | cons p rest ih =>
    obtain ⟨k1, v1⟩ := p
    by_cases h1 : k1 = k
    · subst h1
      rw [objSet_cons_eq, objKeys_cons, objKeys_cons]
      simp
    · rw [objSet_cons_ne k1 v1 rest k v h1, objKeys_cons, objKeys_cons, ih]
      have hk : ¬ k = k1 := fun h => h1 h.symm
      by_cases hm : k ∈ objKeys rest
      · simp [hm, hk]
      · simp [hm, hk]

theorem mem_objKeys_objSet {V : Type} (o : List (String × V)) (k : String) (v : V) :
    k ∈ objKeys (objSet o k v) := by
  rw [objKeys_objSet]
  by_cases hm : k ∈ objKeys o <;> simp [hm]

theorem objKeys_objSet_superset {V : Type} (o : List (String × V)) (k q : String) (v : V)
    (h : q ∈ objKeys o) : q ∈ objKeys (objSet o k v) := by
  rw [objKeys_objSet]
  by_cases hm : k ∈ objKeys o <;> simp [hm, h]

theorem objSet_comm {V : Type} (o : List (String × V)) (k1 k2 : String) (v1 v2 : V)
    (hne : k1 ≠ k2) (hmem : k1 ∈ objKeys o) :
    objSet (objSet o k1 v1) k2 v2 = objSet (objSet o k2 v2) k1 v1 := by
  induction o with
  | nil => simp [objKeys] at hmem
  | cons p rest ih =>
    obtain ⟨k, w⟩ := p
    by_cases h1 : k = k1
    · subst h1
      have h2 : ¬ k = k2 := hne
      rw [objSet_cons_eq, objSet_cons_ne _ _ _ _ _ h2, objSet_cons_ne _ _ _ _ _ h2,
        objSet_cons_eq]
    · by_cases h2 : k = k2
      · subst h2
        rw [objSet_cons_ne _ _ _ _ _ h1, objSet_cons_eq, objSet_cons_eq,
          objSet_cons_ne _ _ _ _ _ h1]
      · have hmem' : k1 ∈ objKeys rest := by
          rw [objKeys_cons] at hmem
          rcases List.mem_cons.mp hmem with h | h
          · exact absurd h.symm h1
          · exact h
        rw [objSet_cons_ne _ _ _ _ _ h1, objSet_cons_ne _ _ _ _ _ h2,
          objSet_cons_ne _ _ _ _ _ h2, objSet_cons_ne _ _ _ _ _ h1, ih hmem']

theorem objLookup_eq_none_of_not_mem {V : Type} (o : List (String × V)) (k : String)
    (h : k ∉ objKeys o) : objLookup o k = none := by
  induction o with
  | nil => rfl
  | cons p rest ih =>
    obtain ⟨k1, v1⟩ := p
    rw [objKeys_cons] at h
    have h1 : ¬ k1 = k := fun hh => h (hh ▸ List.mem_cons_self _ _)
    have h2 : k ∉ objKeys rest := fun hh => h (List.mem_cons_of_mem _ hh)
    simp [objLookup, h1, ih h2]

theorem NodupKeys_cons {V : Type} (k : String) (v : V) (o : List (String × V))
    (h : NodupKeys ((k, v) :: o)) : k ∉ objKeys o ∧ NodupKeys o := by
  rw [NodupKeys, objKeys_cons, List.nodup_cons] at h
  exact h

theorem NodupKeys_objSet {V : Type} (o : List (String × V)) (k : String) (v : V)
    (h : NodupKeys o) : NodupKeys (objSet o k v) := by
  unfold NodupKeys
  rw [objKeys_objSet]
  by_cases hm : k ∈ objKeys o
  · simpa [hm] using h
  · simp only [hm, if_false]
    simpa [List.nodup_append] using ⟨h, hm⟩

theorem objKeys_append {V : Type} (a b : List (String × V)) :
    objKeys (a ++ b) = objKeys a ++ objKeys b := List.map_append _ _ _

theorem objLookup_objMergeWith_notin {V : Type} (g : Option V → V → V) :
    ∀ (b a : List (String × V)) (k : String), k ∉ objKeys b →
      objLookup (objMergeWith g a b) k = objLookup a k
  | [], _, _, _ => rfl
  | (kb, vb) :: b', a, k, h => by
    rw [objKeys_cons] at h
    have hk : ¬ kb = k := fun hh => h (hh ▸ List.mem_cons_self _ _)
    have h2 : k ∉ objKeys b' := fun hh => h (List.mem_cons_of_mem _ hh)
    rw [show objMergeWith g a ((kb, vb) :: b') =
        objMergeWith g (objSet a kb (g (objLookup a kb) vb)) b' from rfl,
      objLookup_objMergeWith_notin g b' _ k h2, objLookup_objSet]
    simp [hk]

theorem objMergeWith_nodup {V : Type} (g : Option V → V → V) :
    ∀ (b a : List (String × V)), NodupKeys a → NodupKeys (objMergeWith g a b)
  | [], _, h => h
  | (_, _) :: b', _, h => objMergeWith_nodup g b' _ (NodupKeys_objSet _ _ _ h)

theorem objLookup_P {V : Type} (P : V → Prop) :
    ∀ (a : List (String × V)) (k : String) (x : V),
      (∀ p ∈ a, P p.2) → objLookup a k = some x → P x
  | [], k, x, _, h => by simp [objLookup] at h
  | (k1, v1) :: a', k, x, hP, h => by
    by_cases h1 : k1 = k
    · rw [objLookup, if_pos h1] at h
      cases h
      exact hP (k1, v1) (List.mem_cons_self _ _)
    · rw [objLookup, if_neg h1] at h
      exact objLookup_P P a' k x (fun p hp => hP p (List.mem_cons_of_mem _ hp)) h

theorem valuesP_objSet {V : Type} (P : V → Prop) :
    ∀ (o : List (String × V)) (k : String) (v : V),
      (∀ p ∈ o, P p.2) → P v → ∀ p ∈ objSet o k v, P p.2
  | [], k, v, _, hv, p, hp => by
    simp only [objSet, List.mem_singleton] at hp
    rw [hp]
    exact hv
  | (k1, v1) :: o', k, v, hP, hv, p, hp => by
    by_cases h1 : k1 = k
    · subst h1
      rw [objSet_cons_eq] at hp
      rcases List.mem_cons.mp hp with h | h
      · rw [h]; exact hv
      · exact hP p (List.mem_cons_of_mem _ h)
    · rw [objSet_cons_ne _ _ _ _ _ h1] at hp
      rcases List.mem_cons.mp hp with h | h
      · rw [h]; exact hP (k1, v1) (List.mem_cons_self _ _)
      · exact valuesP_objSet P o' k v (fun q hq => hP q (List.mem_cons_of_mem _ hq)) hv p h

/-- Setting a key that is present in `a` and untouched by `b` commutes
with merging `b`. -/
theorem objMergeWith_objSet_notin {V : Type} (g : Option V → V → V) :
    ∀ (b a : List (String × V)) (k : String) (y : V),
      k ∈ objKeys a → k ∉ objKeys b →
      objMergeWith g (objSet a k y) b = objSet (objMergeWith g a b) k y
  | [], _, _, _, _, _ => rfl
  | (k2, v2) :: b2, a, k, y, hka, hkb => by
    rw [objKeys_cons] at hkb
    have hk2 : ¬ k = k2 := fun hh => hkb (hh ▸ List.mem_cons_self _ _)
    have hkb2 : k ∉ objKeys b2 := fun hh => hkb (List.mem_cons_of_mem _ hh)
    have hlook : objLookup (objSet a k y) k2 = objLookup a k2 := by
      rw [objLookup_objSet]; simp [hk2]
    rw [show objMergeWith g (objSet a k y) ((k2, v2) :: b2) =
        objMergeWith g (objSet (objSet a k y) k2 (g (objLookup (objSet a k y) k2) v2))
          b2 from rfl,
      hlook, objSet_comm a k k2 y _ hk2 hka,
      objMergeWith_objSet_notin g b2 (objSet a k2 (g (objLookup a k2) v2)) k y
        (objKeys_objSet_superset _ _ _ _ hka) hkb2,
      show objMergeWith g a ((k2, v2) :: b2) =
        objMergeWith g (objSet a k2 (g (objLookup a k2) v2)) b2 from rfl]

/-- The key step of associativity: merging a one-key update of `b`
into `a` is updating the merge of `b` into `a`, given the combination
conditions on `g`. -/
theorem objMergeWith_set {V : Type} (g : Option V → V → V) (P : V → Prop)
    (hPg : ∀ (o : Option V) (v : V), (∀ x, o = some x → P x) → P v → P (g o v))
    (hg1 : ∀ (o : Option V) (v w : V), (∀ x, o = some x → P x) → P v → P w →
      g (some (g o v)) w = g o (g (some v) w))
    (hg2 : ∀ (o : Option V) (v : V), (∀ x, o = some x → P x) → P v →
      g o (g none v) = g o v) :
    ∀ (b a : List (String × V)) (k : String) (w : V),
      NodupKeys b → (∀ p ∈ a, P p.2) → (∀ p ∈ b, P p.2) → P w →
      objMergeWith g a (objSet b k (g (objLookup b k) w)) =
        objSet (objMergeWith g a b) k (g (objLookup (objMergeWith g a b) k) w)
  | [], a, k, w, _, hPa, _, hw => by
    show objSet a k (g (objLookup a k) (g none w)) = objSet a k (g (objLookup a k) w)
    rw [hg2 (objLookup a k) w (fun x hx => objLookup_P P a k x hPa hx) hw]
  | (k1, v1) :: b1, a, k, w, hnb, hPa, hPb, hw => by
    obtain ⟨hk1b1, hnb1⟩ := NodupKeys_cons k1 v1 b1 hnb
    by_cases hk : k1 = k
    · subst hk
      rw [show objLookup ((k1, v1) :: b1) k1 = some v1 from by simp [objLookup],
        objSet_cons_eq,
        show objMergeWith g a ((k1, g (some v1) w) :: b1) =
          objMergeWith g (objSet a k1 (g (objLookup a k1) (g (some v1) w))) b1 from rfl,
        ← hg1 (objLookup a k1) v1 w (fun x hx => objLookup_P P a k1 x hPa hx)
          (hPb (k1, v1) (List.mem_cons_self _ _)) hw,
        show objMergeWith g a ((k1, v1) :: b1) =
          objMergeWith g (objSet a k1 (g (objLookup a k1) v1)) b1 from rfl,
        objLookup_objMergeWith_notin g b1 _ k1 hk1b1, objLookup_objSet]
      simp only [if_pos rfl]
      rw [← objSet_objSet a k1 (g (some (g (objLookup a k1) v1)) w) (g (objLookup a k1) v1)]
      exact objMergeWith_objSet_notin g b1 (objSet a k1 (g (objLookup a k1) v1)) k1 _
        (mem_objKeys_objSet _ _ _) hk1b1
    · have hlb : objLookup ((k1, v1) :: b1) k = objLookup b1 k := by
        simp [objLookup, hk]
      rw [hlb, objSet_cons_ne k1 v1 b1 k _ hk,
        show objMergeWith g a ((k1, v1) :: objSet b1 k (g (objLookup b1 k) w)) =
          objMergeWith g (objSet a k1 (g (objLookup a k1) v1))
            (objSet b1 k (g (objLookup b1 k) w)) from rfl,
        objMergeWith_set g P hPg hg1 hg2 b1 (objSet a k1 (g (objLookup a k1) v1)) k w hnb1
          (valuesP_objSet P a k1 _ hPa
            (hPg (objLookup a k1) v1 (fun x hx => objLookup_P P a k1 x hPa hx)
              (hPb (k1, v1) (List.mem_cons_self _ _))))
          (fun p hp => hPb p (List.mem_cons_of_mem _ hp)) hw]
      rfl

/-- Generic associativity of the key-by-key merge. -/
theorem objMergeWith_assoc {V : Type} (g : Option V → V → V) (P : V → Prop)
    (hPg : ∀ (o : Option V) (v : V), (∀ x, o = some x → P x) → P v → P (g o v))
    (hg1 : ∀ (o : Option V) (v w : V), (∀ x, o = some x → P x) → P v → P w →
      g (some (g o v)) w = g o (g (some v) w))
    (hg2 : ∀ (o : Option V) (v : V), (∀ x, o = some x → P x) → P v →
      g o (g none v) = g o v) :
    ∀ (c b a : List (String × V)), NodupKeys b → NodupKeys c →
      (∀ p ∈ a, P p.2) → (∀ p ∈ b, P p.2) → (∀ p ∈ c, P p.2) →
      objMergeWith g (objMergeWith g a b) c = objMergeWith g a (objMergeWith g b c)
  | [], _, _, _, _, _, _, _ => rfl
  | (k, w) :: c', b, a, hnb, hnc, hPa, hPb, hPc => by
    obtain ⟨-, hnc'⟩ := NodupKeys_cons k w c' hnc
    have hw := hPc (k, w) (List.mem_cons_self _ _)
    have hPb' : ∀ p ∈ objSet b k (g (objLookup b k) w), P p.2 :=
      valuesP_objSet P b k _ hPb
        (hPg _ w (fun x hx => objLookup_P P b k x hPb hx) hw)
    have hnb' : NodupKeys (objSet b k (g (objLookup b k) w)) := NodupKeys_objSet _ _ _ hnb
    rw [show objMergeWith g b ((k, w) :: c') =
        objMergeWith g (objSet b k (g (objLookup b k) w)) c' from rfl,
      ← objMergeWith_assoc g P hPg hg1 hg2 c' _ a hnb' hnc' hPa hPb'
        (fun p hp => hPc p (List.mem_cons_of_mem _ hp)),
      objMergeWith_set g P hPg hg1 hg2 b a k w hnb hPa hPb hw]
    rfl

theorem objSet_append_of_not_mem {V : Type} :
    ∀ (a : List (String × V)) (k : String) (v : V), k ∉ objKeys a →
      objSet a k v = a ++ [(k, v)]
  | [], _, _, _ => rfl
  | (k1, v1) :: a', k, v, h => by
    rw [objKeys_cons] at h
    have h1 : ¬ k1 = k := fun hh => h (hh ▸ List.mem_cons_self _ _)
    rw [objSet_cons_ne _ _ _ _ _ h1,
      objSet_append_of_not_mem a' k v (fun hh => h (List.mem_cons_of_mem _ hh))]
    rfl

/-- Merging a key-disjoint object is concatenation (when `g` is the
identity on fresh keys). -/
theorem objMergeWith_disjoint_append {V : Type} (g : Option V → V → V) :
    ∀ (c a : List (String × V)),
      (∀ q ∈ objKeys c, q ∉ objKeys a) → NodupKeys c →
      (∀ p ∈ c, g none p.2 = p.2) →
      objMergeWith g a c = a ++ c
  | [], a, _, _, _ => by simp [objMergeWith]
  | (k, w) :: c', a, hd, hnc, hnil => by
    obtain ⟨hkc', hnc'⟩ := NodupKeys_cons k w c' hnc
    have hka : k ∉ objKeys a := hd k (by rw [objKeys_cons]; exact List.mem_cons_self _ _)
    rw [show objMergeWith g a ((k, w) :: c') =
        objMergeWith g (objSet a k (g (objLookup a k) w)) c' from rfl,
      objLookup_eq_none_of_not_mem a k hka, hnil (k, w) (List.mem_cons_self _ _),
      objSet_append_of_not_mem a k w hka,
      objMergeWith_disjoint_append g c' (a ++ [(k, w)])
        (by
          intro q hq
          rw [objKeys_append]
          simp only [List.mem_append]
          rintro (h | h)
          · exact hd q (by rw [objKeys_cons]; exact List.mem_cons_of_mem _ hq) h
          · have hqk : q = k := by simpa [objKeys] using h
            exact hkc' (hqk ▸ hq))
        hnc' (fun p hp => hnil p (List.mem_cons_of_mem _ hp))]
    simp

theorem objAssign_eq_merge {V : Type} (a b : List (String × V)) :
    objAssign a b = objMergeWith (fun _ v => v) a b := rfl

theorem objAssign_assoc {V : Type} (a b c : List (String × V))
    (hb : NodupKeys b) (hc : NodupKeys c) :
    objAssign (objAssign a b) c = objAssign a (objAssign b c) := by
  simp only [objAssign_eq_merge]
  exact objMergeWith_assoc (fun _ v => v) (fun _ => True) (fun _ _ _ _ => trivial)
    (fun _ _ _ _ _ _ => rfl) (fun _ _ _ _ => rfl) c b a hb hc
    (fun _ _ => trivial) (fun _ _ => trivial) (fun _ _ => trivial)

theorem objAssign_nodup {V : Type} (a b : List (String × V)) (h : NodupKeys a) :
    NodupKeys (objAssign a b) :=
  objMergeWith_nodup (fun _ v => v) b a h

theorem objAssign_nil {V : Type} (v : List (String × V)) (h : NodupKeys v) :
    objAssign ([] : List (String × V)) v = v := by
  rw [objAssign_eq_merge,
    objMergeWith_disjoint_append (fun _ v => v) v []
      (by simp [objKeys]) h (fun _ _ => rfl)]
  simp

theorem deepCloneConfig_eq (c : GlobalConfig) : deepCloneConfig c = c := by
  unfold deepCloneConfig
  cases c with
  | mk commands =>
    cases commands with
    | none => rfl
    | some cmds => simp

theorem mergeConfigs_none (base override : GlobalConfig) (h : override.commands = none) :
    mergeConfigs base override = base := by
  unfold mergeConfigs
  dsimp only
  rw [h]
  exact deepCloneConfig_eq base

theorem mergeConfigs_some (base override : GlobalConfig)
    (oc : List (String × List (String × JsValue))) (h : override.commands = some oc) :
    mergeConfigs base override =
      ⟨some (objMergeWith (fun old v => objAssign (old.getD []) v)
        (base.commands.getD []) oc)⟩ := by
  unfold mergeConfigs
  dsimp only
  rw [h, deepCloneConfig_eq]
  rfl

/-- **C8.** Config-layer merging is associative:
`mergeConfigs (mergeConfigs A B) C = mergeConfigs A (mergeConfigs B C)`
for all configs whose commands mapping and per-command records have
unique keys (JS objects always do). -/
theorem mergeConfigs_assoc (A B C : GlobalConfig)
    (hA2 : ∀ p ∈ A.commands.getD [], NodupKeys p.2)
    (hB1 : NodupKeys (B.commands.getD []))
    (hB2 : ∀ p ∈ B.commands.getD [], NodupKeys p.2)
    (hC1 : NodupKeys (C.commands.getD []))
    (hC2 : ∀ p ∈ C.commands.getD [], NodupKeys p.2) :
    mergeConfigs (mergeConfigs A B) C = mergeConfigs A (mergeConfigs B C) := by
  have hPg : ∀ (o : Option (List (String × JsValue))) (v : List (String × JsValue)),
      (∀ x, o = some x → NodupKeys x) → NodupKeys v →
      NodupKeys (objAssign (o.getD []) v) := by
    intro o v ho _
    refine objAssign_nodup _ _ ?_
    cases o with
    | none => exact List.nodup_nil
    | some x => exact ho x rfl
  have hg1 : ∀ (o : Option (List (String × JsValue))) (v w : List (String × JsValue)),
      (∀ x, o = some x → NodupKeys x) → NodupKeys v → NodupKeys w →
      objAssign (objAssign (o.getD []) v) w = objAssign (o.getD []) (objAssign v w) :=
    fun _ v w _ hv hw => objAssign_assoc _ v w hv hw
  have hg2 : ∀ (o : Option (List (String × JsValue))) (v : List (String × JsValue)),
      (∀ x, o = some x → NodupKeys x) → NodupKeys v →
      objAssign (o.getD []) (objAssign [] v) = objAssign (o.getD []) v :=
    fun _ v _ hv => by rw [objAssign_nil v hv]
  cases hc : C.commands with
  | none =>
    rw [mergeConfigs_none _ C hc, mergeConfigs_none B C hc]
  | some cc =>
    rw [hc] at hC1 hC2
    cases hb : B.commands with
    | none =>
      rw [mergeConfigs_none A B hb, mergeConfigs_some B C cc hc]
      have hbnil : B.commands.getD [] = [] := by rw [hb]; rfl
      rw [hbnil]
      have hMnil : objMergeWith (fun old v => objAssign (old.getD []) v)
          ([] : List (String × List (String × JsValue))) cc = cc := by
        rw [objMergeWith_disjoint_append _ cc [] (by simp [objKeys]) hC1
          (fun p hp => objAssign_nil p.2 (hC2 p hp))]
        simp
      rw [hMnil, mergeConfigs_some A C cc hc, mergeConfigs_some A ⟨some cc⟩ cc rfl]
    | some bc =>
      rw [hb] at hB1 hB2
      rw [mergeConfigs_some A B bc hb, mergeConfigs_some B C cc hc,
        mergeConfigs_some _ C cc hc, mergeConfigs_some A _ _ rfl]
      have := objMergeWith_assoc (fun old v => objAssign (old.getD []) v) NodupKeys
        hPg hg1 hg2 cc bc (A.commands.getD []) hB1 hC1 hA2 hB2 hC2
      simpa [hb] using this

/-- Witness for C8 on concrete three-layer configs. -/
theorem mergeConfigs_assoc_witness :
    mergeConfigs
        (mergeConfigs ⟨some [("claude", [("print", JsValue.bool true)])]⟩
          ⟨some [("claude", [("model", JsValue.str "opus".toList)]), ("codex", [])]⟩)
        ⟨some [("claude", [("print", JsValue.bool false)]),
               ("gemini", [("y", JsValue.bool true)])]⟩ =
      mergeConfigs ⟨some [("claude", [("print", JsValue.bool true)])]⟩
        (mergeConfigs ⟨some [("claude", [("model", JsValue.str "opus".toList)]), ("codex", [])]⟩
          ⟨some [("claude", [("print", JsValue.bool false)]),
                 ("gemini", [("y", JsValue.bool true)])]⟩) :=
  mergeConfigs_assoc _ _ _ (by decide) (by decide) (by decide) (by decide) (by decide)

/-! ### Heap lemmas for the frame claim -/

theorem Heap.get_extends {h2 : Heap} (h : Heap) (t : List HNode)
    (hext : h2.nodes = h.nodes ++ t) (r : Nat) (hr : r < h.nodes.length) :
    h2.get r = h.get r := by
  unfold Heap.get
  rw [hext]
  simp [List.getElem?_append, hr]

theorem Heap.get_alloc_self (hp : Heap) (n : HNode) :
    (hp.alloc n).1.get hp.nodes.length = some n := by
  unfold Heap.alloc Heap.get
  simp

theorem readCmdMap_alloc (hp : Heap) (entries : List (String × Nat)) :
    readCmdMap (hp.alloc (.cmdMap entries)).1 (hp.alloc (.cmdMap entries)).2 = entries := by
  unfold readCmdMap
  rw [show (hp.alloc (.cmdMap entries)).2 = hp.nodes.length from rfl, Heap.get_alloc_self]

theorem cloneCmdStep_nodes (h : Heap) (st : Heap × List (String × Nat))
    (p : String × Nat) : ∃ n, (cloneCmdStep h st p).1.nodes = st.1.nodes ++ [n] :=
  ⟨_, rfl⟩

theorem cloneCmdStep_snd (h : Heap) (st : Heap × List (String × Nat)) (p : String × Nat) :
    (cloneCmdStep h st p).2 = st.2 ++ [(p.1, st.1.nodes.length)] := rfl

theorem mergeCmdStep_nodes (st : Heap × List (String × Nat)) (p : String × Nat) :
    ∃ n, (mergeCmdStep st p).1.nodes = st.1.nodes ++ [n] :=
  ⟨_, rfl⟩

theorem mergeCmdStep_snd (st : Heap × List (String × Nat)) (p : String × Nat) :
    (mergeCmdStep st p).2 = objSet st.2 p.1 st.1.nodes.length := rfl

theorem cloneFold_inv (h : Heap) (base : Nat) (hbase : base ≤ h.nodes.length) :
    ∀ (entries : List (String × Nat)) (st : Heap × List (String × Nat)),
      (∃ t, st.1.nodes = h.nodes ++ t) → (∀ p ∈ st.2, base ≤ p.2) →
      (∃ t, (entries.foldl (cloneCmdStep h) st).1.nodes = h.nodes ++ t) ∧
      (∀ p ∈ (entries.foldl (cloneCmdStep h) st).2, base ≤ p.2)
  | [], _, hext, hrefs => ⟨hext, hrefs⟩
  | p :: es, st, hext, hrefs => by
    obtain ⟨t, ht⟩ := hext
    obtain ⟨n, hn⟩ := cloneCmdStep_nodes h st p
    rw [List.foldl_cons]
    refine cloneFold_inv h base hbase es (cloneCmdStep h st p)
      ⟨t ++ [n], by rw [hn, ht, List.append_assoc]⟩ ?_
    rw [cloneCmdStep_snd]
    intro q hq
    rcases List.mem_append.mp hq with hq | hq
    · exact hrefs q hq
    · rw [List.mem_singleton.mp hq]
      show base ≤ st.1.nodes.length
      rw [ht, List.length_append]
      omega

theorem mergeFold_inv (h : Heap) (base : Nat) (hbase : base ≤ h.nodes.length) :
    ∀ (entries : List (String × Nat)) (st : Heap × List (String × Nat)),
      (∃ t, st.1.nodes = h.nodes ++ t) → (∀ p ∈ st.2, base ≤ p.2) →
      (∃ t, (entries.foldl mergeCmdStep st).1.nodes = h.nodes ++ t) ∧
      (∀ p ∈ (entries.foldl mergeCmdStep st).2, base ≤ p.2)
  | [], _, hext, hrefs => ⟨hext, hrefs⟩
  | p :: es, st, hext, hrefs => by
    obtain ⟨t, ht⟩ := hext
    obtain ⟨n, hn⟩ := mergeCmdStep_nodes st p
    rw [List.foldl_cons]
    refine mergeFold_inv h base hbase es (mergeCmdStep st p)
      ⟨t ++ [n], by rw [hn, ht, List.append_assoc]⟩ ?_
    rw [mergeCmdStep_snd]
    refine valuesP_objSet (fun r => base ≤ r) st.2 p.1 st.1.nodes.length hrefs ?_
    rw [ht, List.length_append]
    omega

theorem deepCloneConfigH_spec (h : Heap) (cfg : GlobalConfigRef) :
    (∃ t, (deepCloneConfigH h cfg).1.nodes = h.nodes ++ t) ∧
    ∀ cref, (deepCloneConfigH h cfg).2.commands = some cref →
      h.nodes.length ≤ cref ∧
      ∀ p ∈ readCmdMap (deepCloneConfigH h cfg).1 cref, h.nodes.length ≤ p.2 := by
  unfold deepCloneConfigH
  cases hc : cfg.commands with
  | none =>
    exact ⟨⟨[], by simp⟩, fun cref hcr => by cases hcr⟩
  | some r =>
    dsimp only
    obtain ⟨⟨t, hext⟩, hrefs⟩ :=
      cloneFold_inv h h.nodes.length (Nat.le_refl _) (readCmdMap h r) (h, [])
        ⟨[], by simp⟩ (by intro q hq; cases hq)
    refine ⟨⟨t ++ [_], by
      rw [show ((((readCmdMap h r).foldl (cloneCmdStep h) (h, [])).1.alloc
        (.cmdMap ((readCmdMap h r).foldl (cloneCmdStep h) (h, [])).2)).1).nodes =
          ((readCmdMap h r).foldl (cloneCmdStep h) (h, [])).1.nodes ++
            [HNode.cmdMap ((readCmdMap h r).foldl (cloneCmdStep h) (h, [])).2] from rfl,
        hext, List.append_assoc]⟩, ?_⟩
    intro cref hcr
    have hcref : cref =
        ((readCmdMap h r).foldl (cloneCmdStep h) (h, [])).1.nodes.length := by
      cases hcr; rfl
    constructor
    · rw [hcref, hext]; simp
    · intro p hp
      rw [hcref] at hp
      rw [show ((readCmdMap h r).foldl (cloneCmdStep h) (h, [])).1.nodes.length =
          (((readCmdMap h r).foldl (cloneCmdStep h) (h, [])).1.alloc
            (.cmdMap ((readCmdMap h r).foldl (cloneCmdStep h) (h, [])).2)).2 from rfl,
        readCmdMap_alloc] at hp
      exact hrefs p hp

/-- **C9.** The heap-level `mergeConfigs` is free of side effects on
its arguments: every pre-existing heap node — in particular everything
reachable from `base` and `override` — is unchanged in the resulting
heap, and the returned config's commands map and every per-command
record it points to are freshly allocated (their references lie beyond
the original heap), so mutating the result cannot alter either
input. -/
theorem mergeConfigsH_frame (h : Heap) (base override : GlobalConfigRef) :
    (∀ r, r < h.nodes.length → (mergeConfigsH h base override).1.get r = h.get r) ∧
    (∀ cref, (mergeConfigsH h base override).2.commands = some cref →
      h.nodes.length ≤ cref ∧
      ∀ p ∈ readCmdMap (mergeConfigsH h base override).1 cref,
        h.nodes.length ≤ p.2) := by
  obtain ⟨⟨t1, hext1⟩, hclone⟩ := deepCloneConfigH_spec h base
  unfold mergeConfigsH
  cases ho : override.commands with
  | none =>
    dsimp only
    exact ⟨fun r hr => Heap.get_extends h t1 hext1 r hr, hclone⟩
  | some orf =>
    dsimp only
    have hcur : ∀ p ∈ (match (deepCloneConfigH h base).2.commands with
        | some r => readCmdMap (deepCloneConfigH h base).1 r
        | none => ([] : List (String × Nat))), h.nodes.length ≤ p.2 := by
      cases hcc : (deepCloneConfigH h base).2.commands with
      | none => intro p hp; cases hp
      | some r =>
        intro p hp
        exact ((hclone r hcc).2) p hp
    obtain ⟨⟨t2, hext2⟩, hrefs⟩ :=
      mergeFold_inv h h.nodes.length (Nat.le_refl _) (readCmdMap h orf)
        ((deepCloneConfigH h base).1,
          match (deepCloneConfigH h base).2.commands with
          | some r => readCmdMap (deepCloneConfigH h base).1 r
          | none => []) ⟨t1, hext1⟩ hcur
    set folded := (readCmdMap h orf).foldl mergeCmdStep
      ((deepCloneConfigH h base).1,
        match (deepCloneConfigH h base).2.commands with
        | some r => readCmdMap (deepCloneConfigH h base).1 r
        | none => []) with hfolded
    constructor
    · intro r hr
      refine Heap.get_extends h (t2 ++ [HNode.cmdMap folded.2]) ?_ r hr
      rw [show ((folded.1.alloc (.cmdMap folded.2)).1).nodes =
          folded.1.nodes ++ [HNode.cmdMap folded.2] from rfl, hext2, List.append_assoc]
    · intro cref hcr
      have hcref : cref = folded.1.nodes.length := by cases hcr; rfl
      constructor
      · rw [hcref, hext2]; simp
      · intro p hp
        rw [hcref] at hp
        rw [show folded.1.nodes.length = (folded.1.alloc (.cmdMap folded.2)).2 from rfl,
          readCmdMap_alloc] at hp
        exact hrefs p hp

/-! ### Parser infrastructure: slices, scans, matcher inversion -/

theorem getElem?_some_lt {s : List Char} {i : Nat} {c : Char}
    (h : s[i]? = some c) : i < s.length := by
  by_contra hn
  rw [List.getElem?_eq_none (by omega)] at h
  exact Option.noConfusion h

theorem runCount_le (p : Char → Bool) (s : List Char) (i : Nat) :
    runCount p s i ≤ s.length - i := by
  unfold runCount
  calc ((s.drop i).takeWhile p).length ≤ (s.drop i).length :=
        (List.takeWhile_prefix p).length_le
    _ = s.length - i := by rw [List.length_drop]

theorem sliceList_length (s : List Char) (a b : Nat) :
    (sliceList s a b).length = min b s.length - a := by
  unfold sliceList
  rw [List.length_drop, List.length_take]

theorem sliceList_self (s : List Char) (a b : Nat) :
    sliceList s a (a + (sliceList s a b).length) = sliceList s a b := by
  rcases Nat.le_total a (min b s.length) with hab | hab
  · have h1 : a + (sliceList s a b).length = min b s.length := by
      rw [sliceList_length]; omega
    rw [h1]
    unfold sliceList
    rcases Nat.le_total b s.length with hb | hb
    · rw [Nat.min_eq_left hb]
    · rw [Nat.min_eq_right hb, List.take_of_length_le (Nat.le_refl _),
        List.take_of_length_le hb]
  · have h0 : (sliceList s a b).length = 0 := by
      rw [sliceList_length]; omega
    have h1 : (sliceList s a a).length = 0 := by
      rw [sliceList_length]
      have := Nat.min_le_left a s.length
      omega
    rw [h0, Nat.add_zero, List.length_eq_zero.mp h0, List.length_eq_zero.mp h1]

theorem hasAt_cons (s : List Char) (i : Nat) (c : Char) (rest : List Char)
    (h : hasAt s i (c :: rest) = true) :
    s[i]? = some c ∧ hasAt s (i + 1) rest = true := by
  unfold hasAt at h ⊢
  obtain ⟨t, ht⟩ := List.isPrefixOf_iff_prefix.mp h
  have hd : s.drop (i + 1) = rest ++ t := by
    rw [← List.drop_drop, ← ht]
    rfl
  constructor
  · have h0 : (s.drop i)[0]? = some c := by rw [← ht]; simp
    rw [List.getElem?_drop] at h0
    simpa using h0
  · exact List.isPrefixOf_iff_prefix.mpr ⟨t, hd.symm⟩

theorem scanPattern_zero {τ : Type} (n : Nat) (mA : Nat → Option (Nat × τ)) (i : Nat) :
    scanPattern n mA i 0 = [] := rfl

theorem scanPattern_succ {τ : Type} (n : Nat) (mA : Nat → Option (Nat × τ)) (i fuel : Nat) :
    scanPattern n mA i (fuel + 1) =
      if n ≤ i then []
      else match mA i with
        | some et => (i, et.1, et.2) :: scanPattern n mA et.1 fuel
        | none => scanPattern n mA (i + 1) fuel := rfl

theorem scanPattern_inv {τ : Type} (n : Nat) (matchAt : Nat → Option (Nat × τ))
    (hm : ∀ i e t, matchAt i = some (e, t) → i < e) :
    ∀ (fuel i : Nat),
      (∀ m ∈ scanPattern n matchAt i fuel,
        i ≤ m.1 ∧ m.1 < n ∧ m.1 < m.2.1 ∧ matchAt m.1 = some m.2) ∧
      List.Pairwise (fun a b : Nat × Nat × τ => a.2.1 ≤ b.1) (scanPattern n matchAt i fuel) := by
  intro fuel
  induction fuel with
  | zero =>
    intro i
    rw [scanPattern_zero]
    exact ⟨fun m hmem => absurd hmem (List.not_mem_nil m), List.Pairwise.nil⟩
  | succ fuel ih =>
    intro i
    rw [scanPattern_succ]
    by_cases hni : n ≤ i
    · rw [if_pos hni]
      exact ⟨fun m hmem => absurd hmem (List.not_mem_nil m), List.Pairwise.nil⟩
    · rw [if_neg hni]
      cases hma : matchAt i with
      | none =>
        obtain ⟨ihmem, ihpw⟩ := ih (i + 1)
        refine ⟨fun m hmem => ?_, ihpw⟩
        obtain ⟨h1, h2, h3, h4⟩ := ihmem m hmem
        exact ⟨by omega, h2, h3, h4⟩
      | some et =>
        obtain ⟨ihmem, ihpw⟩ := ih et.1
        have hie : i < et.1 := hm i et.1 et.2 (by rw [hma])
        constructor
        · intro m hmem
          rcases List.mem_cons.mp hmem with hh | ht
          · subst hh
            exact ⟨Nat.le_refl _, by omega, hie, by rw [hma]⟩
          · obtain ⟨h1, h2, h3, h4⟩ := ihmem m ht
            exact ⟨by omega, h2, h3, h4⟩
        · exact List.Pairwise.cons (fun b hb => (ihmem b hb).1) ihpw

theorem scanPattern_index_lt {τ : Type} (n : Nat) (matchAt : Nat → Option (Nat × τ))
    (hm : ∀ i e t, matchAt i = some (e, t) → i < e) (fuel i : Nat) :
    List.Pairwise (fun a b : Nat × Nat × τ => a.1 < b.1) (scanPattern n matchAt i fuel) := by
  obtain ⟨hmem, hpw⟩ := scanPattern_inv n matchAt hm fuel i
  exact hpw.imp_of_mem (fun {a b} ha hb hab => lt_of_lt_of_le (hmem a ha).2.2.1 hab)

theorem pairwise_filterMap_of {α β : Type} (R : β → β → Prop) (f : α → Option β)
    (S : α → α → Prop)
    (h : ∀ a b x y, S a b → f a = some x → f b = some y → R x y) :
    ∀ l : List α, l.Pairwise S → (l.filterMap f).Pairwise R := by
  intro l hl
  induction hl with
  | nil => exact List.Pairwise.nil
  | @cons a l' hx hxs ih =>
    rw [List.filterMap_cons]
    cases hfa : f a with
    | none => exact ih
    | some x =>
      refine List.Pairwise.cons ?_ ih
      intro y hy
      obtain ⟨b, hb, hfb⟩ := List.mem_filterMap.mp hy
      exact h a b x y (hx b hb) hfa hfb

theorem matchFileAt_inv (s : List Char) (i e : Nat) (t : Unit)
    (h : matchFileAt s i = some (e, t)) :
    s[i]? = some '@' ∧ i < e ∧
      (s[i + 1]? = some '~' ∨ s[i + 1]? = some '.' ∨ s[i + 1]? = some '/') := by
  unfold matchFileAt at h
  split at h
  next heq =>
    dsimp only at h
    by_cases ht : s[i + 1]? = some '~'
    · rw [if_pos ht] at h
      split at h
      next c heq2 =>
        split at h
        · split at h
          · refine ⟨heq, ?_, Or.inl ht⟩
            have he : i + 2 + 1 + runCount (fun ch => !jsWhitespace ch) s (i + 2 + 1) = e := by
              injection h with h1
              exact congrArg Prod.fst h1
            omega
          · exact Option.noConfusion h
        · exact Option.noConfusion h
      next => exact Option.noConfusion h
    · rw [if_neg ht] at h
      split at h
      next c heq2 =>
        split at h
        next hcd =>
          split at h
          · refine ⟨heq, ?_, ?_⟩
            · have he : i + 1 + 1 + runCount (fun ch => !jsWhitespace ch) s (i + 1 + 1) = e := by
                injection h with h1
                exact congrArg Prod.fst h1
              omega
            · rcases hcd with hc | hc <;> rw [hc] at heq2
              · exact Or.inr (Or.inl heq2)
              · exact Or.inr (Or.inr heq2)
          · exact Option.noConfusion h
        next => exact Option.noConfusion h
      next => exact Option.noConfusion h
  next => exact Option.noConfusion h

theorem matchUrlAt_inv (s : List Char) (i e : Nat) (t : Unit)
    (h : matchUrlAt s i = some (e, t)) :
    s[i]? = some '@' ∧ i < e ∧ s[i + 1]? = some 'h' := by
  unfold matchUrlAt at h
  split at h
  next heq =>
    split at h
    next hhttp =>
      dsimp only at h
      have hh : s[i + 1]? = some 'h' := (hasAt_cons s (i + 1) 'h' _ hhttp).1
      by_cases hs : s[i + 5]? = some 's'
      · rw [if_pos hs] at h
        split at h
        next hdelim =>
          split at h
          · refine ⟨heq, ?_, hh⟩
            have he : i + 6 + 3 + runCount (fun ch => !jsWhitespace ch) s (i + 6 + 3) = e := by
              injection h with h1
              exact congrArg Prod.fst h1
            omega
          · exact Option.noConfusion h
        next => exact Option.noConfusion h
      · rw [if_neg hs] at h
        split at h
        next hdelim =>
          split at h
          · refine ⟨heq, ?_, hh⟩
            have he : i + 5 + 3 + runCount (fun ch => !jsWhitespace ch) s (i + 5 + 3) = e := by
              injection h with h1
              exact congrArg Prod.fst h1
            omega
          · exact Option.noConfusion h
        next => exact Option.noConfusion h
    next => exact Option.noConfusion h
  next => exact Option.noConfusion h

theorem findDelimFrom_ge (s delim : List Char) :
    ∀ (fuel e0 e : Nat), findDelimFrom s delim e0 fuel = some e →
      e0 ≤ e ∧ e + delim.length ≤ s.length
  | 0, _, _, h => Option.noConfusion h
  | fuel + 1, e0, e, h => by
    unfold findDelimFrom at h
    split at h
    · exact Option.noConfusion h
    next h1 =>
      split at h
      · injection h with h2
        subst h2
        exact ⟨Nat.le_refl _, by omega⟩
      · obtain ⟨ha, hb⟩ := findDelimFrom_ge s delim fuel (e0 + 1) e h
        exact ⟨by omega, hb⟩

theorem tryCmdDelims_lt (s : List Char) (i : Nat) :
    ∀ (fuel : Nat) (r : Nat × Nat × Nat), tryCmdDelims s i fuel = some r → i < r.1
  | 0, _, h => Option.noConfusion h
  | j + 1, r, h => by
    unfold tryCmdDelims at h
    dsimp only at h
    split at h
    next e heq =>
      injection h with h1
      subst h1
      obtain ⟨ha, hb⟩ := findDelimFrom_ge s (List.replicate (j + 1) '`') _ _ _ heq
      dsimp only
      omega
    next => exact tryCmdDelims_lt s i j r h

theorem matchCommandAt_inv (s : List Char) (i e : Nat) (t : Nat × Nat)
    (h : matchCommandAt s i = some (e, t)) :
    s[i]? = some '!' ∧ i < e := by
  unfold matchCommandAt at h
  split at h
  next heq =>
    dsimp only at h
    split at h
    · exact Option.noConfusion h
    · exact ⟨heq, tryCmdDelims_lt s i _ (e, t) h⟩
  next => exact Option.noConfusion h

theorem fenceAttempt_lt (s : List Char) (i j : Nat) (r : Nat × Nat × Nat × Nat × Nat × Nat)
    (h : fenceAttempt s i j = some r) : i < r.1 := by
  unfold fenceAttempt at h
  dsimp only at h
  split at h
  · split at h
    · split at h
      · split at h
        · split at h
          next e heq =>
            injection h with h1
            subst h1
            have hnl : i + j ≤ skipToNL s (i + j) := Nat.le_add_right _ _
            obtain ⟨ha, hb⟩ := findDelimFrom_ge s (List.replicate j '`') _ _ _ heq
            dsimp only
            omega
          next => exact Option.noConfusion h
        · exact Option.noConfusion h
      · exact Option.noConfusion h
    · exact Option.noConfusion h
  · exact Option.noConfusion h

theorem tryFenceDelims_lt (s : List Char) (i : Nat) :
    ∀ (fuel : Nat) (r : Nat × Nat × Nat × Nat × Nat × Nat),
      tryFenceDelims s i fuel = some r → i < r.1
  | 0, _, h => Option.noConfusion h
  | j + 1, r, h => by
    unfold tryFenceDelims at h
    split at h
    · exact Option.noConfusion h
    · split at h
      next res heq =>
        injection h with h1
        subst h1
        exact fenceAttempt_lt s i (j + 1) _ heq
      next => exact tryFenceDelims_lt s i j r h

theorem matchFenceAt_inv (s : List Char) (i e : Nat) (t : Nat × Nat × Nat × Nat × Nat)
    (h : matchFenceAt s i = some (e, t)) :
    s[i]? = some '`' ∧ i < e := by
  unfold matchFenceAt at h
  split at h
  next heq =>
    dsimp only at h
    split at h
    · exact Option.noConfusion h
    · exact ⟨heq, tryFenceDelims_lt s i _ (e, t) h⟩
  next => exact Option.noConfusion h

theorem parseFileImportPath_spec (f p : List Char) (idx : Nat) :
    (parseFileImportPath f p idx).original = f ∧
    (parseFileImportPath f p idx).index = idx ∧
    (parseFileImportPath f p idx).isExecFence = false := by
  unfold parseFileImportPath
  repeat' split
  all_goals exact ⟨rfl, rfl, rfl⟩

theorem span_facts (content : List Char) (idx e : Nat) (hlt : idx < content.length) :
    idx + (sliceList content idx e).length ≤ content.length ∧
    sliceList content idx (idx + (sliceList content idx e).length) =
      sliceList content idx e := by
  constructor
  · rw [sliceList_length]
    have := Nat.min_le_right e content.length
    omega
  · exact sliceList_self content idx e

theorem mem_fileActions {content : List Char} {a : ImportAction}
    (ha : a ∈ fileActions content) :
    a.isExecFence = false ∧
    isInSafeRange a.index (findSafeRanges content) = true ∧
    content[a.index]? = some '@' ∧
    (content[a.index + 1]? = some '~' ∨ content[a.index + 1]? = some '.' ∨
      content[a.index + 1]? = some '/') ∧
    a.index < content.length ∧ ∃ e, a.original = sliceList content a.index e := by
  unfold fileActions at ha
  obtain ⟨m, hm, hf⟩ := List.mem_filterMap.mp ha
  obtain ⟨h0, hn, hlt, hma⟩ :=
    (scanPattern_inv content.length (matchFileAt content)
      (fun i e t h => (matchFileAt_inv content i e t h).2.1) (content.length + 1) 0).1 m hm
  split at hf
  next hguard =>
    injection hf with hf1
    subst hf1
    obtain ⟨ho, hi, hx⟩ := parseFileImportPath_spec (sliceList content m.1 m.2.1)
      (sliceList content (m.1 + 1) m.2.1) m.1
    have hfile := matchFileAt_inv content m.1 m.2.1 m.2.2 hma
    rw [ho, hi, hx]
    exact ⟨rfl, ((Bool.and_eq_true _ _).mp hguard).1, hfile.1, hfile.2.2, hn, ⟨m.2.1, rfl⟩⟩
  next => exact Option.noConfusion hf

theorem mem_urlActions {content : List Char} {a : ImportAction}
    (ha : a ∈ urlActions content) :
    a.isExecFence = false ∧
    isInSafeRange a.index (findSafeRanges content) = true ∧
    content[a.index]? = some '@' ∧ content[a.index + 1]? = some 'h' ∧
    a.index < content.length ∧ ∃ e, a.original = sliceList content a.index e := by
  unfold urlActions at ha
  obtain ⟨m, hm, hf⟩ := List.mem_filterMap.mp ha
  obtain ⟨h0, hn, hlt, hma⟩ :=
    (scanPattern_inv content.length (matchUrlAt content)
      (fun i e t h => (matchUrlAt_inv content i e t h).2.1) (content.length + 1) 0).1 m hm
  split at hf
  next hguard =>
    injection hf with hf1
    subst hf1
    have hurl := matchUrlAt_inv content m.1 m.2.1 m.2.2 hma
    exact ⟨rfl, ((Bool.and_eq_true _ _).mp hguard).1, hurl.1, hurl.2.2, hn, ⟨m.2.1, rfl⟩⟩
  next => exact Option.noConfusion hf

theorem mem_commandActions {content : List Char} {a : ImportAction}
    (ha : a ∈ commandActions content) :
    a.isExecFence = false ∧
    isInSafeRange a.index (findSafeRanges content) = true ∧
    content[a.index]? = some '!' ∧
    a.index < content.length ∧ ∃ e, a.original = sliceList content a.index e := by
  unfold commandActions at ha
  obtain ⟨m, hm, hf⟩ := List.mem_filterMap.mp ha
  obtain ⟨h0, hn, hlt, hma⟩ :=
    (scanPattern_inv content.length (matchCommandAt content)
      (fun i e t h => (matchCommandAt_inv content i e t h).2) (content.length + 1) 0).1 m hm
  split at hf
  next hguard =>
    injection hf with hf1
    subst hf1
    have hcmd := matchCommandAt_inv content m.1 m.2.1 m.2.2 hma
    exact ⟨rfl, ((Bool.and_eq_true _ _).mp hguard).1, hcmd.1, hn, ⟨m.2.1, rfl⟩⟩
  next => exact Option.noConfusion hf

theorem mem_fenceActions {content : List Char} {a : ImportAction}
    (ha : a ∈ fenceActions content) :
    a.isExecFence = true ∧
    a.index ∈ unsafeStarts content ∧
    content[a.index]? = some '`' ∧
    a.index < content.length ∧ ∃ e, a.original = sliceList content a.index e := by
  unfold fenceActions at ha
  obtain ⟨m, hm, hf⟩ := List.mem_filterMap.mp ha
  obtain ⟨h0, hn, hlt, hma⟩ :=
    (scanPattern_inv content.length (matchFenceAt content)
      (fun i e t h => (matchFenceAt_inv content i e t h).2) (content.length + 1) 0).1 m hm
  dsimp only at hf
  split at hf
  next hguard =>
    split at hf
    next hsb =>
      injection hf with hf1
      subst hf1
      have hfen := matchFenceAt_inv content m.1 m.2.1 m.2.2 hma
      exact ⟨rfl, by simpa using hguard, hfen.1, hn, ⟨m.2.1, rfl⟩⟩
    next => exact Option.noConfusion hf
  next => exact Option.noConfusion hf

theorem fileActions_pairwise (content : List Char) :
    (fileActions content).Pairwise (fun a b => a.index < b.index) := by
  unfold fileActions
  refine pairwise_filterMap_of _ _ (fun m m' : Nat × Nat × Unit => m.1 < m'.1) ?_ _
    (scanPattern_index_lt _ _ (fun i e t h => (matchFileAt_inv content i e t h).2.1) _ _)
  intro m m' x y hS hx hy
  split at hx
  · split at hy
    · injection hx with hx1
      injection hy with hy1
      subst hx1
      subst hy1
      rw [(parseFileImportPath_spec _ _ _).2.1, (parseFileImportPath_spec _ _ _).2.1]
      exact hS
    · exact Option.noConfusion hy
  · exact Option.noConfusion hx

theorem urlActions_pairwise (content : List Char) :
    (urlActions content).Pairwise (fun a b => a.index < b.index) := by
  unfold urlActions
  refine pairwise_filterMap_of _ _ (fun m m' : Nat × Nat × Unit => m.1 < m'.1) ?_ _
    (scanPattern_index_lt _ _ (fun i e t h => (matchUrlAt_inv content i e t h).2.1) _ _)
  intro m m' x y hS hx hy
  split at hx
  · split at hy
    · injection hx with hx1
      injection hy with hy1
      subst hx1
      subst hy1
      exact hS
    · exact Option.noConfusion hy
  · exact Option.noConfusion hx

theorem commandActions_pairwise (content : List Char) :
    (commandActions content).Pairwise (fun a b => a.index < b.index) := by
  unfold commandActions
  refine pairwise_filterMap_of _ _ (fun m m' : Nat × Nat × Nat × Nat => m.1 < m'.1) ?_ _
    (scanPattern_index_lt _ _ (fun i e t h => (matchCommandAt_inv content i e t h).2) _ _)
  intro m m' x y hS hx hy
  split at hx
  · split at hy
    · injection hx with hx1
      injection hy with hy1
      subst hx1
      subst hy1
      exact hS
    · exact Option.noConfusion hy
  · exact Option.noConfusion hx

theorem fenceActions_pairwise (content : List Char) :
    (fenceActions content).Pairwise (fun a b => a.index < b.index) := by
  unfold fenceActions
  refine pairwise_filterMap_of _ _
    (fun m m' : Nat × Nat × Nat × Nat × Nat × Nat × Nat => m.1 < m'.1) ?_ _
    (scanPattern_index_lt _ _ (fun i e t h => (matchFenceAt_inv content i e t h).2) _ _)
  intro m m' x y hS hx hy
  dsimp only at hx hy
  split at hx
  · split at hx
    · split at hy
      · split at hy
        · injection hx with hx1
          injection hy with hy1
          subst hx1
          subst hy1
          exact hS
        · exact Option.noConfusion hy
      · exact Option.noConfusion hy
    · exact Option.noConfusion hx
  · exact Option.noConfusion hx

theorem index_ne_of_chars {content : List Char} {a b : ImportAction} {ca cb : Char}
    (hca : content[a.index]? = some ca) (hcb : content[b.index]? = some cb)
    (hne : ca ≠ cb) : a.index ≠ b.index := by
  intro hEq
  rw [hEq, hcb] at hca
  exact hne (Option.some.inj hca).symm

theorem file_url_index_ne {content : List Char} {a b : ImportAction}
    (hfa : content[a.index + 1]? = some '~' ∨ content[a.index + 1]? = some '.' ∨
      content[a.index + 1]? = some '/')
    (hub : content[b.index + 1]? = some 'h') : a.index ≠ b.index := by
  intro hEq
  rw [hEq, hub] at hfa
  rcases hfa with h | h | h <;> exact absurd h (by decide)

/-- **C1.** Context safety of the parser: every directive produced by
`parseImports` other than an executable fence has its index inside a
safe range (outside every fenced code block and inline code span), and
every executable-fence directive's index is one of the recorded unsafe
starts (the offset of a top-level fenced-block opening). -/
theorem parseImports_context_safety (content : List Char) :
    ∀ a ∈ parseImports content,
      (a.isExecFence = false →
        isInSafeRange a.index (findSafeRanges content) = true) ∧
      (a.isExecFence = true → a.index ∈ unsafeStarts content) := by
  intro a ha
  have hmem : a ∈ fileActions content ++ urlActions content ++ commandActions content ++
      fenceActions content := (List.perm_insertionSort _ _).mem_iff.mp ha
  rcases List.mem_append.mp hmem with h123 | h4
  · rcases List.mem_append.mp h123 with h12 | h3
    · rcases List.mem_append.mp h12 with h1 | h2
      · obtain ⟨hx, hs, _⟩ := mem_fileActions h1
        exact ⟨fun _ => hs, fun hc => Bool.noConfusion (hx.symm.trans hc)⟩
      · obtain ⟨hx, hs, _⟩ := mem_urlActions h2
        exact ⟨fun _ => hs, fun hc => Bool.noConfusion (hx.symm.trans hc)⟩
    · obtain ⟨hx, hs, _⟩ := mem_commandActions h3
      exact ⟨fun _ => hs, fun hc => Bool.noConfusion (hx.symm.trans hc)⟩
  · obtain ⟨hx, hu, _⟩ := mem_fenceActions h4
    exact ⟨fun hc => Bool.noConfusion (hx.symm.trans hc), fun _ => hu⟩

/-- Witness for the context-safety theorem at a concrete input: the
single file directive of `"@./a"` sits in a safe range. -/
theorem parseImports_context_safety_witness :
    ImportAction.file "./a".toList none "@./a".toList 0 ∈ parseImports "@./a".toList ∧
    isInSafeRange (ImportAction.file "./a".toList none "@./a".toList 0).index
      (findSafeRanges "@./a".toList) = true :=
  ⟨by decide, (parseImports_context_safety "@./a".toList _ (by decide)).1 rfl⟩

/-- **C2 (amended).** The directive list of `parseImports` is sorted
strictly ascending by index, and every directive's span fits the body:
`index + len(original) ≤ len(body)` with
`body[index .. index+len(original)) = original`.  (The claim's third
part — that spans never overlap — is refuted by
the overlap counterexample.) -/
theorem parseImports_sorted_spans (content : List Char) :
    (parseImports content).Pairwise (fun a b => a.index < b.index) ∧
    ∀ a ∈ parseImports content,
      a.index + a.original.length ≤ content.length ∧
      sliceList content a.index (a.index + a.original.length) = a.original := by
  have hperm : List.Perm
      (List.insertionSort (fun a b : ImportAction => a.index ≤ b.index)
        (fileActions content ++ urlActions content ++ commandActions content ++
          fenceActions content))
      (fileActions content ++ urlActions content ++ commandActions content ++
        fenceActions content) := List.perm_insertionSort _ _
  constructor
  · have hsorted : (parseImports content).Pairwise (fun a b => a.index ≤ b.index) :=
      List.sorted_insertionSort _ _
    have pwf := (fileActions_pairwise content).imp (fun {a b} h => Nat.ne_of_lt h)
    have pwu := (urlActions_pairwise content).imp (fun {a b} h => Nat.ne_of_lt h)
    have pwc := (commandActions_pairwise content).imp (fun {a b} h => Nat.ne_of_lt h)
    have pwn := (fenceActions_pairwise content).imp (fun {a b} h => Nat.ne_of_lt h)
    have hAB : (fileActions content ++ urlActions content).Pairwise
        (fun a b => a.index ≠ b.index) := by
      refine List.pairwise_append.mpr ⟨pwf, pwu, ?_⟩
      intro a haf b hbu
      exact file_url_index_ne (mem_fileActions haf).2.2.2.1 (mem_urlActions hbu).2.2.2.1
    have hABC : ((fileActions content ++ urlActions content) ++
        commandActions content).Pairwise (fun a b => a.index ≠ b.index) := by
      refine List.pairwise_append.mpr ⟨hAB, pwc, ?_⟩
      intro a hab b hbc
      have hbchar := (mem_commandActions hbc).2.2.1
      rcases List.mem_append.mp hab with h1 | h2
      · exact index_ne_of_chars (mem_fileActions h1).2.2.1 hbchar (by decide)
      · exact index_ne_of_chars (mem_urlActions h2).2.2.1 hbchar (by decide)
    have hne_cat : ((fileActions content ++ urlActions content ++
        commandActions content) ++ fenceActions content).Pairwise
        (fun a b => a.index ≠ b.index) := by
      refine List.pairwise_append.mpr ⟨hABC, pwn, ?_⟩
      intro a hab b hbf
      have hbchar := (mem_fenceActions hbf).2.2.1
      rcases List.mem_append.mp hab with h12 | h3
      · rcases List.mem_append.mp h12 with h1 | h2
        · exact index_ne_of_chars (mem_fileActions h1).2.2.1 hbchar (by decide)
        · exact index_ne_of_chars (mem_urlActions h2).2.2.1 hbchar (by decide)
      · exact index_ne_of_chars (mem_commandActions h3).2.2.1 hbchar (by decide)
    have hne : (parseImports content).Pairwise (fun a b => a.index ≠ b.index) :=
      (hperm.pairwise_iff (fun {x y} h => Ne.symm h)).mpr hne_cat
    exact (hsorted.and hne).imp (fun {a b} hab => lt_of_le_of_ne hab.1 hab.2)
  · intro a ha
    have hmem : a ∈ fileActions content ++ urlActions content ++
        commandActions content ++ fenceActions content := hperm.mem_iff.mp ha
    rcases List.mem_append.mp hmem with h123 | h4
    · rcases List.mem_append.mp h123 with h12 | h3
      · rcases List.mem_append.mp h12 with h1 | h2
        · obtain ⟨_, _, _, _, hn, e, he⟩ := mem_fileActions h1
          rw [he]
          exact span_facts content a.index e hn
        · obtain ⟨_, _, _, _, hn, e, he⟩ := mem_urlActions h2
          rw [he]
          exact span_facts content a.index e hn
      · obtain ⟨_, _, _, hn, e, he⟩ := mem_commandActions h3
        rw [he]
        exact span_facts content a.index e hn
    · obtain ⟨_, _, _, hn, e, he⟩ := mem_fenceActions h4
      rw [he]
      exact span_facts content a.index e hn

/-- Witness for the span theorem at a concrete input. -/
theorem parseImports_sorted_spans_witness :
    (ImportAction.file "./b".toList none "@./b".toList 0).index +
        (ImportAction.file "./b".toList none "@./b".toList 0).original.length ≤
      ("@./b".toList).length :=
  ((parseImports_sorted_spans "@./b".toList).2 _ (by decide)).1

/-- **C2 counterexample.** On `"@./a@https://b"` the file directive's
span covers the whole body (the `[^\s]+` character class consumes the
URL text as well), while the URL directive's span starts inside it:
the two spans overlap, refuting the non-overlap part of the claim. -/
theorem parseImports_overlap_counterexample :
    (parseImports "@./a@https://b".toList).map
        (fun a => (a.index, a.index + a.original.length)) = [(0, 14), (4, 14)] ∧
    ¬ (parseImports "@./a@https://b".toList).Pairwise
        (fun a b => a.index + a.original.length ≤ b.index ∨
          b.index + b.original.length ≤ a.index) := by
  constructor <;> decide

/-- Witness for the frame theorem at a concrete heap: merging leaves
the pre-existing node untouched. -/
theorem mergeConfigsH_frame_witness :
    (mergeConfigsH (Heap.mk [HNode.cmdMap [("build", 0)]]) ⟨some 0⟩ ⟨some 0⟩).1.get 0 =
      (Heap.mk [HNode.cmdMap [("build", 0)]]).get 0 :=
  (mergeConfigsH_frame (Heap.mk [HNode.cmdMap [("build", 0)]]) ⟨some 0⟩ ⟨some 0⟩).1 0
    (by decide)

end MdAgent
